import Mathlib

/-!
# Verification of the `mana-symbols` core

A shallow embedding of the mana-cost parsing / normalization / sorting core
of the `mana-symbols` Rust library, together with proofs about it.

The embedding mirrors, definition by definition:
* `src/color.rs` — the five-valued cyclic `Color` type;
* `src/color_set.rs` — the precomputed `ORDER_ARRAY` color-rank table;
* `src/generic_mana.rs`, `src/single_mana.rs`, `src/split_mana.rs` — the leaf
  symbol kinds, their parsers and renderers;
* `src/mana.rs` — the `Mana` union, its parser (`nom` alternation order
  preserved) and `Display`;
* `src/manas.rs` — sequences of symbols: whole-string parsing (`many0` + `eof`),
  total mana value, hybrid normalization and the multi-pass stable sort.

Strings are modelled as `List Char`; a `nom` parser over `&str` becomes a
function `List Char → Option (α × List Char)` returning the parsed value and
the remaining input.  Rust `usize` values are modelled as `Nat`:
`str::parse::<usize>` fails with `PosOverflow` above `usize::MAX`, so the
digit-run parser carries an explicit `≤ USIZE_MAX` bound and every `usize`
the program ever holds is representable; the remaining arithmetic is
comparisons and the `mana_value` sum, which the theorems below only evaluate
on small concrete costs or compare across permutations, so wrapping makes no
difference to them.  Rust's `char::is_numeric` is
modelled as ASCII `Char.isDigit`; on the ASCII alphabet of the mana grammar
the two coincide.  Rust's `slice::sort_by_key` (a stable sort) is modelled by
a stable insertion sort, `stableSortByKey`.
-/

namespace ManaSymbols

/-- `Color` from `src/color.rs`: one of the five colors of the color pie,
with discriminants White = 0, …, Green = 4. -/
inductive Color where
  | white
  | blue
  | black
  | red
  | green
deriving DecidableEq, Repr

/-- The numeric discriminant of a color (`color as usize` in Rust). -/
def Color.toIdx : Color → Nat
  | .white => 0
  | .blue => 1
  | .black => 2
  | .red => 3
  | .green => 4

/-- `ALL_COLORS` from `src/color.rs`. -/
def ALL_COLORS : List Color := [.white, .blue, .black, .red, .green]

/-- `Color::from_usize` from `src/color.rs` (selection on `n % 5`). -/
def Color.from_usize (n : Nat) : Color :=
  match n % 5 with
  | 0 => .white
  | 1 => .blue
  | 2 => .black
  | 3 => .red
  | _ => .green

/-- `Color::next` from `src/color.rs`: the color `i` positions clockwise. -/
def Color.next (c : Color) (i : Nat) : Color :=
  Color.from_usize (c.toIdx + i)

/-- The display character of a color (`impl Display for Color`). -/
def Color.render : Color → Char
  | .white => 'W'
  | .blue => 'U'
  | .black => 'B'
  | .red => 'R'
  | .green => 'G'

/-- `Color::parse` from `src/color.rs`: `alt` over the five letter parsers. -/
def Color.parse : List Char → Option (Color × List Char)
  | 'W' :: r => some (.white, r)
  | 'U' :: r => some (.blue, r)
  | 'B' :: r => some (.black, r)
  | 'R' :: r => some (.red, r)
  | 'G' :: r => some (.green, r)
  | _ => none

/-! ## The color-rank table (`src/color_set.rs`)

A `ColorSet` is a 5-bit subset mask (`bitset: u8`); we model the mask as a
`Nat`.  `ORDER_ARRAY` maps each of the 32 masks to a rank row (one rank per
color position). -/

/-- `ColorSet::set_color`: set the bit corresponding to the color. -/
def setColor (s : Nat) (c : Color) : Nat := s ||| (1 <<< c.toIdx)

/-- The subset mask touched by a shape: the first loop of `add_order`
in `src/color_set.rs`. -/
def maskOfOffsets (c : Color) (offsets : List Nat) : Nat :=
  offsets.foldl (fun s off => setColor s (c.next off)) 0

/-- `add_order` from `src/color_set.rs`: compute the subset mask of the
colors touched by `offsets` from anchor `c`, then write rank `i` for the
color at `offsets[i]`, for each `i ≥ 1`, into the row at that mask. -/
def addOrder (a : List (List Nat)) (c : Color) (offsets : List Nat) : List (List Nat) :=
  let mask := maskOfOffsets c offsets
  let row := (List.range offsets.length).foldl
    (fun row i => if 1 ≤ i then row.set (c.next (offsets.getD i 0)).toIdx i else row)
    (a.getD mask [])
  a.set mask row

/-- The five shape offset lists applied to every anchor color, in the order
of the `ORDER_ARRAY` initializer in `src/color_set.rs`. -/
def SHAPES : List (List Nat) := [[0, 1], [0, 2], [0, 1, 2], [1, 3, 0], [0, 1, 2, 3]]

/-- `ORDER_ARRAY` from `src/color_set.rs`: for each anchor color, apply the
five shapes; finally the full five-color row is written directly. -/
def ORDER_ARRAY : List (List Nat) :=
  let a := ALL_COLORS.foldl (fun a c => SHAPES.foldl (fun a offs => addOrder a c offs) a)
    (List.replicate 32 [0, 0, 0, 0, 0])
  a.set 0b11111 [0, 1, 2, 3, 4]

/-- `ColorSet::order_values`: the rank row for a subset mask. -/
def orderValues (mask : Nat) : List Nat := ORDER_ARRAY.getD mask []

/-- The rank of color `c` inside the subset `mask` (`order[c as usize]`). -/
def orderOf (mask : Nat) (c : Color) : Nat := (orderValues mask).getD c.toIdx 0

/-- The masks written by the 25 anchor/shape constructions of `ORDER_ARRAY`,
in construction order (excluding the directly-written full five-color row). -/
def producedMasks : List Nat :=
  (ALL_COLORS.map (fun c => SHAPES.map (fun offs => maskOfOffsets c offs))).flatten

/-! ## Leaf symbol kinds -/

/-- `GenericMana` from `src/generic_mana.rs`. -/
inductive GenericMana where
  | number (v : Nat)
  | x
  | y
  | z
deriving DecidableEq, Repr

/-- `SingleMana` from `src/single_mana.rs`. -/
inductive SingleMana where
  | normal (c : Color)
  | phyrexian (c : Color)
deriving DecidableEq, Repr

/-- `SplitMana` from `src/split_mana.rs`. -/
inductive SplitMana where
  | mono (value : Nat) (color : Color)
  | colorless (color : Color)
  | duo (a : Color) (b : Color) (phyrexian : Bool)
deriving DecidableEq, Repr

/-- `Mana` from `src/mana.rs`: the atomic cost symbol. -/
inductive Mana where
  | single (s : SingleMana)
  | generic (g : GenericMana)
  | split (s : SplitMana)
  | colorless
  | snow
deriving DecidableEq, Repr

/-! ## Rendering (the `Display` implementations) -/

/-- Fuel-driven decimal rendering; structural recursion on the fuel keeps
it kernel-reducible.  `natToDigits` below always supplies enough fuel. -/
def natToDigitsFuel : Nat → Nat → List Char
  | 0, _ => []
  | fuel + 1, n =>
    if n < 10 then [Char.ofNat (48 + n)]
    else natToDigitsFuel fuel (n / 10) ++ [Char.ofNat (48 + n % 10)]

/-- Decimal rendering of a `Nat`, as Rust's `Display for usize`: most
significant digit first, no leading zeros (`0` renders as `"0"`). -/
def natToDigits (n : Nat) : List Char := natToDigitsFuel (n + 1) n

/-- `impl Display for GenericMana`. -/
def GenericMana.render : GenericMana → List Char
  | .number v => natToDigits v
  | .x => ['X']
  | .y => ['Y']
  | .z => ['Z']

/-- `impl Display for SingleMana`. -/
def SingleMana.render : SingleMana → List Char
  | .normal c => [c.render]
  | .phyrexian c => [c.render, '/', 'P']

/-- `impl Display for SplitMana`. -/
def SplitMana.render : SplitMana → List Char
  | .mono v c => natToDigits v ++ ['/', c.render]
  | .colorless c => ['C', '/', c.render]
  | .duo a b phyrexian =>
      if phyrexian then [a.render, '/', b.render, '/', 'P']
      else [a.render, '/', b.render]

/-- `impl Display for Mana`. -/
def Mana.render : Mana → List Char
  | .single s => s.render
  | .generic g => g.render
  | .split s => s.render
  | .colorless => ['C']
  | .snow => ['S']

/-- `impl Display for Manas`: each symbol wrapped in `{`…`}`. -/
def Manas.render (l : List Mana) : List Char :=
  (l.map (fun m => '{' :: m.render ++ ['}'])).flatten

/-! ## Parsing

Each `nom` parser becomes `List Char → Option (α × List Char)`; `alt`
becomes `pAlt` (first success wins). -/

/-- Ordered alternation: `nom::branch::alt` on two parsers' results. -/
def pAlt (a b : Option (α × List Char)) : Option (α × List Char) :=
  match a with
  | some r => some r
  | none => b

/-- ASCII decimal digit test: models `char::is_numeric` (the Rust function
also accepts non-ASCII Unicode numerics, but those never survive the
subsequent `str::parse::<usize>`, so the success/consumption behaviour of
the combined parser coincides with this ASCII model on all inputs the
grammar can accept). -/
def isDigitChar (c : Char) : Bool := c.isDigit

/-- The numeric value of a digit string, as `str::parse::<usize>` computes
it for a string of ASCII digits. -/
def digitsVal (ds : List Char) : Nat :=
  ds.foldl (fun a c => a * 10 + (c.toNat - 48)) 0

/-- `usize::MAX` on the 64-bit targets the crate is built and tested on:
`str::parse::<usize>` fails with `PosOverflow` on any digit run whose value
exceeds it. -/
def USIZE_MAX : Nat := 2 ^ 64 - 1

/-- `take_while(is_numeric).map_res(|s| s.parse::<usize>())`: the digit-run
parser used by `GenericMana::parse` and `SplitMana::parse`.  `map_res` fails
the branch when `parse::<usize>` errs: on an empty run (`Empty`) and on a
run whose value exceeds `usize::MAX` (`PosOverflow`). -/
def parseNumber (cs : List Char) : Option (Nat × List Char) :=
  if (cs.takeWhile isDigitChar).isEmpty then none
  else if digitsVal (cs.takeWhile isDigitChar) ≤ USIZE_MAX then
    some (digitsVal (cs.takeWhile isDigitChar), cs.dropWhile isDigitChar)
  else none

/-- `GenericMana::parse`: `alt((x, y, z, number))`. -/
def GenericMana.parse (cs : List Char) : Option (GenericMana × List Char) :=
  match cs with
  | 'X' :: r => some (.x, r)
  | 'Y' :: r => some (.y, r)
  | 'Z' :: r => some (.z, r)
  | cs => (parseNumber cs).map fun (n, r) => (.number n, r)

/-- The `preceded(tag("C/"), Color::parse)` alternative of `SplitMana::parse`. -/
def parseSplitColorless : List Char → Option (SplitMana × List Char)
  | 'C' :: '/' :: r => (Color.parse r).map fun (c, r') => (.colorless c, r')
  | _ => none

/-- The phyrexian `Color "/" Color "/P"` alternative of `SplitMana::parse`. -/
def parseSplitDuoP (cs : List Char) : Option (SplitMana × List Char) :=
  match Color.parse cs with
  | some (a, '/' :: r2) =>
    match Color.parse r2 with
    | some (b, '/' :: 'P' :: r4) => some (.duo a b true, r4)
    | _ => none
  | _ => none

/-- The plain `Color "/" Color` alternative of `SplitMana::parse`. -/
def parseSplitDuo (cs : List Char) : Option (SplitMana × List Char) :=
  match Color.parse cs with
  | some (a, '/' :: r2) =>
    match Color.parse r2 with
    | some (b, r3) => some (.duo a b false, r3)
    | none => none
  | _ => none

/-- The `digits "/" Color` alternative of `SplitMana::parse`. -/
def parseSplitMono (cs : List Char) : Option (SplitMana × List Char) :=
  match parseNumber cs with
  | some (n, '/' :: r2) =>
    match Color.parse r2 with
    | some (c, r3) => some (.mono n c, r3)
    | none => none
  | _ => none

/-- `SplitMana::parse`: `alt((colorless, phyrexian, normal, generic))`. -/
def SplitMana.parse (cs : List Char) : Option (SplitMana × List Char) :=
  pAlt (parseSplitColorless cs)
    (pAlt (parseSplitDuoP cs) (pAlt (parseSplitDuo cs) (parseSplitMono cs)))

/-- The `Color "/P"` alternative of `SingleMana::parse`. -/
def parseSinglePhyrexian (cs : List Char) : Option (SingleMana × List Char) :=
  match Color.parse cs with
  | some (c, '/' :: 'P' :: r2) => some (.phyrexian c, r2)
  | _ => none

/-- `SingleMana::parse`: `alt((phyrexian, normal))`. -/
def SingleMana.parse (cs : List Char) : Option (SingleMana × List Char) :=
  pAlt (parseSinglePhyrexian cs)
    ((Color.parse cs).map fun (c, r) => (.normal c, r))

/-- `Mana::parse_inner`: `alt((split, generic, single, colorless, snow))` —
the "longer" kinds first, to avoid matching prefixes. -/
def Mana.parse_inner (cs : List Char) : Option (Mana × List Char) :=
  pAlt ((SplitMana.parse cs).map fun (s, r) => (.split s, r))
    (pAlt ((GenericMana.parse cs).map fun (g, r) => (.generic g, r))
      (pAlt ((SingleMana.parse cs).map fun (s, r) => (.single s, r))
        (pAlt
          (match cs with
           | 'C' :: r => some (Mana.colorless, r)
           | _ => none)
          (match cs with
           | 'S' :: r => some (Mana.snow, r)
           | _ => none))))

/-- The `delimited(char('{'), parse_inner, char('}'))` alternative of
`Mana::parse`. -/
def Mana.parse_braced (cs : List Char) : Option (Mana × List Char) :=
  match cs with
  | '{' :: r =>
    match Mana.parse_inner r with
    | some (m, '}' :: r') => some (m, r')
    | _ => none
  | _ => none

/-- `Mana::parse`: `alt((brackets, parse_inner))`. -/
def Mana.parse (cs : List Char) : Option (Mana × List Char) :=
  pAlt (Mana.parse_braced cs) (Mana.parse_inner cs)

/-- `Mana::from_str`: `terminated(parse, eof)`. -/
def Mana.from_str (cs : List Char) : Option Mana :=
  match Mana.parse cs with
  | some (m, []) => some m
  | _ => none

/-! ### The `many0` loop of `Manas::parse`

`nom::multi::many0` repeats `Mana::parse` until it fails; every successful
`Mana::parse` consumes at least one character, so supplying `length + 1`
units of fuel makes the fuel-driven loop below exact (proved in
`parseManasFuel_congr`); structural recursion on the fuel keeps the
parser kernel-reducible. -/

/-- Fuel-driven `many0(Mana::parse)` loop. -/
def parseManasFuel : Nat → List Char → List Mana × List Char
  | 0, cs => ([], cs)
  | fuel + 1, cs =>
    match Mana.parse cs with
    | none => ([], cs)
    | some (m, r) =>
      let rest := parseManasFuel fuel r
      (m :: rest.1, rest.2)

/-- `many0(Mana::parse)`: collect symbols until the symbol parser fails;
returns the list together with the unconsumed remainder. -/
def parseManas (cs : List Char) : List Mana × List Char :=
  parseManasFuel (cs.length + 1) cs

/-- `Manas::from_str`: `terminated(parse, eof)` — succeeds only when the
`many0` loop consumed the entire input. -/
def Manas.from_str (cs : List Char) : Option (List Mana) :=
  match parseManas cs with
  | (ms, []) => some ms
  | _ => none

/-! ### The symbol-text grammar, abstractly

For the language-level statements (claims about which strings parse) we
need a description of the single-symbol grammar of §4.3–4.4 / §6 of the
specification, independent of the parser: a symbol text is one of the
split forms, generic forms, single forms, or the literals `C` / `S`,
where digit runs are arbitrary nonempty runs of ASCII digits. -/

/-- One production of the single-symbol grammar, with its data. -/
inductive SymText where
  | splitColorless (c : Color)
  | splitDuoP (a b : Color)
  | splitDuo (a b : Color)
  | splitMono (ds : List Char) (c : Color)
  | gx
  | gy
  | gz
  | gnum (ds : List Char)
  | sphy (c : Color)
  | snorm (c : Color)
  | litc
  | lits
deriving DecidableEq, Repr

/-- The text of a production. -/
def SymText.text : SymText → List Char
  | .splitColorless c => ['C', '/', c.render]
  | .splitDuoP a b => [a.render, '/', b.render, '/', 'P']
  | .splitDuo a b => [a.render, '/', b.render]
  | .splitMono ds c => ds ++ ['/', c.render]
  | .gx => ['X']
  | .gy => ['Y']
  | .gz => ['Z']
  | .gnum ds => ds
  | .sphy c => [c.render, '/', 'P']
  | .snorm c => [c.render]
  | .litc => ['C']
  | .lits => ['S']

/-- Well-formedness: digit runs are nonempty runs of digits whose value
fits in a `usize` (above `usize::MAX` the digit-run parser fails with
`PosOverflow`). -/
def SymText.wf : SymText → Prop
  | .splitMono ds _ =>
      ds ≠ [] ∧ (∀ c ∈ ds, isDigitChar c = true) ∧ digitsVal ds ≤ USIZE_MAX
  | .gnum ds =>
      ds ≠ [] ∧ (∀ c ∈ ds, isDigitChar c = true) ∧ digitsVal ds ≤ USIZE_MAX
  | _ => True

/-- Canonical digit runs: no leading zeros (equivalently, the run is the
decimal rendering of its value). -/
def SymText.canonical : SymText → Prop
  | .splitMono ds _ => ∃ n, ds = natToDigits n
  | .gnum ds => ∃ n, ds = natToDigits n
  | _ => True

/-- The `Mana` value a production denotes. -/
def SymText.mana : SymText → Mana
  | .splitColorless c => .split (.colorless c)
  | .splitDuoP a b => .split (.duo a b true)
  | .splitDuo a b => .split (.duo a b false)
  | .splitMono ds c => .split (.mono (digitsVal ds) c)
  | .gx => .generic .x
  | .gy => .generic .y
  | .gz => .generic .z
  | .gnum ds => .generic (.number (digitsVal ds))
  | .sphy c => .single (.phyrexian c)
  | .snorm c => .single (.normal c)
  | .litc => .colorless
  | .lits => .snow

/-- Is the production a bare digit run? -/
def SymText.isNum : SymText → Bool
  | .gnum _ => true
  | _ => false

/-- The condition on the remaining input under which the ordered-choice
symbol parser consumes exactly one symbol text: the rest must not start
with `/` (which could extend a color or digit prefix into a longer split
form), and must not start with a digit right after a bare digit run
(which would be absorbed into the run).  Inside braces the rest starts
with `}`, which always satisfies this. -/
def SafeRest (t : SymText) (r : List Char) : Prop :=
  match r with
  | [] => True
  | c :: _ => c ≠ '/' ∧ (isDigitChar c = true → t.isNum = false)

/-- One group of a cost string: a symbol text, braced or bare. -/
structure Group where
  braced : Bool
  sym : SymText
deriving DecidableEq, Repr

/-- The text of a group. -/
def Group.text (g : Group) : List Char :=
  if g.braced then '{' :: g.sym.text ++ ['}'] else g.sym.text

/-- Adjacency constraint of the cost-string language: a bare digit-run
group may not be followed directly by a group whose text starts with a
digit — the greedy `take_while` of the digit-run parser would absorb those
digits into the first run, so such a decomposition never describes what
the parser consumes (and the combined run can overflow `usize` where the
two halves do not). -/
def GroupSep (g1 g2 : Group) : Prop :=
  g1.braced = false → g1.sym.isNum = true →
    ∀ z ∈ g2.text.head?, isDigitChar z = false

/-- Membership in the cost-string language: a concatenation of zero or
more groups, each a braced or bare well-formed symbol text, with no bare
digit run directly followed by a further digit. -/
def InLang (cs : List Char) : Prop :=
  ∃ gs : List Group, (∀ g ∈ gs, g.sym.wf) ∧ List.Chain' GroupSep gs ∧
    cs = (gs.map Group.text).flatten

/-! ## Mana values, half colors, normalization (`src/mana.rs`, `src/split_mana.rs`) -/

/-- `Mana::mana_value` from `src/mana.rs`. -/
def Mana.mana_value : Mana → Nat
  | .generic (.number v) => v
  | .generic .x | .generic .y | .generic .z => 0
  | .split (.mono v _) => v
  | .split (.duo _ _ _) | .split (.colorless _) | .single _ | .colorless | .snow => 1

/-- `Manas::mana_value` from `src/manas.rs`: the sum over the elements. -/
def Manas.mana_value (l : List Mana) : Nat := (l.map Mana.mana_value).sum

/-- `SingleMana::color`. -/
def SingleMana.color : SingleMana → Color
  | .normal c => c
  | .phyrexian c => c

/-- `SplitMana::left_half_color`. -/
def SplitMana.left_half_color : SplitMana → Option Color
  | .mono _ _ => none
  | .colorless _ => none
  | .duo a _ _ => some a

/-- `SplitMana::right_half_color`. -/
def SplitMana.right_half_color : SplitMana → Option Color
  | .mono _ c => some c
  | .colorless c => some c
  | .duo _ b _ => some b

/-- `Mana::left_half_color`. -/
def Mana.left_half_color : Mana → Option Color
  | .single s => some s.color
  | .split s => s.left_half_color
  | .generic _ | .colorless | .snow => none

/-- `Mana::right_half_color`.  (`src/mana.rs` writes
`Some(split_mana.right_half_color())` while `src/split_mana.rs` already
returns an `Option`; the doc-tested behaviour — `Split` always yields
`Some` of its right-half color — is what is modelled.) -/
def Mana.right_half_color : Mana → Option Color
  | .single s => some s.color
  | .split s => s.right_half_color
  | .generic _ | .colorless | .snow => none

/-- `SplitMana::normalize` from `src/split_mana.rs`: for a `Duo`, look up
the rank row of the 2-color subset `{a, b}` and swap the halves when `a`
ranks after `b`; a no-op for `Mono` and `Colorless`. -/
def SplitMana.normalize : SplitMana → SplitMana
  | .duo a b phyrexian =>
      let mask := setColor (setColor 0 a) b
      if orderOf mask a > orderOf mask b then .duo b a phyrexian
      else .duo a b phyrexian
  | s => s

/-- `Mana::normalize_hybrid`. -/
def Mana.normalize_hybrid : Mana → Mana
  | .split s => .split s.normalize
  | m => m

/-- `Manas::normalize_hybrid`: normalize every element in place. -/
def Manas.normalize_hybrid (l : List Mana) : List Mana := l.map Mana.normalize_hybrid

/-! ## The sort pipeline (`src/manas.rs`)

Rust's `slice::sort_by_key` is a stable sort; we model it by insertion
sort.  The in-place `take_while`/`skip` slicing of the sorted vector
becomes `List.takeWhile`/`List.dropWhile`, and `chunk_by_mut` becomes
`chunkBy` below. -/

/-- Stable insertion of `x` into `l`: `x` goes before the first element
whose key is `≥ key x` fails… i.e. before the first element it is
not strictly greater than, keeping equal keys in input order. -/
def insertKeyed (key : α → Nat) (x : α) : List α → List α
  | [] => [x]
  | y :: ys => if key x ≤ key y then x :: y :: ys else y :: insertKeyed key x ys

/-- Stable sort by a `Nat` key: the model of `slice::sort_by_key`. -/
def stableSortByKey (key : α → Nat) : List α → List α
  | [] => []
  | x :: xs => insertKeyed key x (stableSortByKey key xs)

/-- `chunk_by` auxiliary walk: `prev` is the previous element, `cur` the
current chunk accumulated in reverse. -/
def chunkByGo (r : α → α → Bool) (prev : α) (cur : List α) : List α → List (List α)
  | [] => [cur.reverse]
  | y :: ys =>
    if r prev y then chunkByGo r y (y :: cur) ys
    else cur.reverse :: chunkByGo r y [y] ys

/-- `slice::chunk_by`: split into maximal runs of consecutive elements
related by `r`. -/
def chunkBy (r : α → α → Bool) : List α → List (List α)
  | [] => []
  | x :: xs => chunkByGo r x [x] xs

/-- The primary bucket key of the first `sort_by_key` pass of `Manas::sort`. -/
def primaryKey : Mana → Nat
  | .generic .x => 0
  | .generic .y => 1
  | .generic .z => 2
  | .generic (.number _) => 3
  | .split (.mono _ _) => 4
  | .colorless => 5
  | .split (.colorless _) => 6
  | .single _ => 7
  | .split (.duo _ _ _) => 7
  | .snow => 8

/-- The secondary key used inside each equal-left-color chunk of the
colored run (the `unreachable!` arms of the Rust `match` are never hit on
the runs the code sorts; they are mapped to 0 here). -/
def secondaryKey : Mana → Nat
  | .single (.normal _) => 0
  | .single (.phyrexian _) => 1
  | .split (.duo _ _ phyrexian) => if phyrexian then 3 else 2
  | _ => 0

/-- `matches!(x, Mana::Generic(_))`. -/
def isGeneric : Mana → Bool
  | .generic _ => true
  | _ => false

/-- `matches!(x, Mana::Split(SplitMana::Mono { .. }))`. -/
def isMono : Mana → Bool
  | .split (.mono _ _) => true
  | _ => false

/-- `matches!(x, Mana::Colorless)`. -/
def isColorlessMana : Mana → Bool
  | .colorless => true
  | _ => false

/-- `matches!(x, Mana::Split(SplitMana::Colorless { .. }))`. -/
def isColorlessHybrid : Mana → Bool
  | .split (.colorless _) => true
  | _ => false

/-- `matches!(x, Mana::Single(_) | Mana::Split(SplitMana::Duo { .. }))`. -/
def isColored : Mana → Bool
  | .single _ => true
  | .split (.duo _ _ _) => true
  | _ => false

/-- `matches!(x, Mana::Single(_))`. -/
def isSingle : Mana → Bool
  | .single _ => true
  | _ => false

/-- The non-phyrexian-duo test of the chunk body of `Manas::sort`. -/
def isDuoNonPhyrexian : Mana → Bool
  | .split (.duo _ _ phyrexian) => !phyrexian
  | _ => false

/-- The right-half color with a (never consulted) default, modelling the
`x.right_half_color().unwrap()` calls of `Manas::sort`. -/
def rightColorD (m : Mana) : Color := m.right_half_color.getD .white

/-- The left-half color with a (never consulted) default, modelling
`x.left_half_color().unwrap()`. -/
def leftColorD (m : Mana) : Color := m.left_half_color.getD .white

/-- The subset mask of the colors present in a run (the `color_set` built
by `sort_by_colors` in `src/manas.rs`). -/
def runMask (f : Mana → Color) (l : List Mana) : Nat :=
  l.foldl (fun s x => setColor s (f x)) 0

/-- `sort_by_colors` from `src/manas.rs`: stable-sort a run by each
element's rank in the subset of colors present in the run. -/
def sortByColors (f : Mana → Color) (l : List Mana) : List Mana :=
  stableSortByKey (fun x => orderOf (runMask f l) (f x)) l

/-- The body of the `chunk_by_mut` loop of `Manas::sort`: stable-sort the
equal-left-color chunk by the secondary key, then sort the non-phyrexian
and phyrexian duo sub-runs by right-half color. -/
def processChunk (c : List Mana) : List Mana :=
  let c1 := stableSortByKey secondaryKey c
  let singles := c1.takeWhile isSingle
  let rest := c1.dropWhile isSingle
  let nonphy := rest.takeWhile isDuoNonPhyrexian
  let phy := rest.dropWhile isDuoNonPhyrexian
  singles ++ sortByColors rightColorD nonphy ++ sortByColors rightColorD phy

/-- The treatment of the colored (`Single`/`Duo`) run of `Manas::sort`:
sort by left-half color rank, then process each maximal run of equal
left-half color. -/
def processColored (d : List Mana) : List Mana :=
  let d1 := sortByColors leftColorD d
  ((chunkBy (fun a b => decide (a.left_half_color = b.left_half_color)) d1).map
    processChunk).flatten

/-- `Manas::sort` from `src/manas.rs`: the first stable pass by
`primaryKey`, then the per-bucket passes on the contiguous runs. -/
def Manas.sort (l : List Mana) : List Mana :=
  let l1 := stableSortByKey primaryKey l
  let g := l1.takeWhile isGeneric
  let r1 := l1.dropWhile isGeneric
  let mono := r1.takeWhile isMono
  let r2 := r1.dropWhile isMono
  let cl := r2.takeWhile isColorlessMana
  let r3 := r2.dropWhile isColorlessMana
  let ch := r3.takeWhile isColorlessHybrid
  let r4 := r3.dropWhile isColorlessHybrid
  let d := r4.takeWhile isColored
  let s := r4.dropWhile isColored
  g ++ sortByColors rightColorD mono ++ cl ++ sortByColors rightColorD ch ++
    processColored d ++ s

/-! ### Auxiliary predicates and canonical forms used by the proofs -/

/-- `matches!(x, Mana::Snow)`. -/
def isSnow : Mana → Bool
  | .snow => true
  | _ => false

/-- The phyrexian-duo test (complement of `isDuoNonPhyrexian` on duos). -/
def isDuoPhyrexian : Mana → Bool
  | .split (.duo _ _ phyrexian) => phyrexian
  | _ => false

/-- A `Duo` whose halves are in canonical order for its own 2-color subset
(`true` on every other symbol). -/
def duoOrdered : Mana → Bool
  | .split (.duo a b _) =>
      orderOf (setColor (setColor 0 a) b) a ≤ orderOf (setColor (setColor 0 a) b) b
  | _ => true

/-- The number of colors in a subset mask. -/
def maskSize (mask : Nat) : Nat := ((List.range 5).filter (fun i => mask.testBit i)).length

/-- The result of the chunk body of `Manas::sort`, written with filters
instead of `take_while`/`skip` slicing (proved equal to `processChunk` on
the runs the code sorts). -/
def canonicalChunk (c : List Mana) : List Mana :=
  stableSortByKey secondaryKey (c.filter isSingle) ++
    sortByColors rightColorD (c.filter isDuoNonPhyrexian) ++
    sortByColors rightColorD (c.filter isDuoPhyrexian)

/-- The result of `Manas::sort`, written with filters instead of
`take_while`/`skip` slicing (proved equal to `Manas.sort`). -/
def canonicalForm (l : List Mana) : List Mana :=
  stableSortByKey primaryKey (l.filter isGeneric) ++
    sortByColors rightColorD (l.filter isMono) ++
    l.filter isColorlessMana ++
    sortByColors rightColorD (l.filter isColorlessHybrid) ++
    processColored (l.filter isColored) ++
    l.filter isSnow

/-! # Theorems

## Parser consumption

Every successful symbol parse consumes at least one character. -/

theorem colorParse_length {cs : List Char} {c : Color} {r : List Char}
    (h : Color.parse cs = some (c, r)) : r.length < cs.length := by
  unfold Color.parse at h
  split at h <;> simp_all

theorem parseNumber_length {cs : List Char} {n : Nat} {r : List Char}
    (h : parseNumber cs = some (n, r)) : r.length < cs.length := by
  unfold parseNumber at h
  by_cases he : (cs.takeWhile isDigitChar).isEmpty
  · rw [if_pos he] at h
    exact Option.noConfusion h
  · by_cases hb : digitsVal (cs.takeWhile isDigitChar) ≤ USIZE_MAX
    · rw [if_neg he, if_pos hb] at h
      simp only [Option.some.injEq, Prod.mk.injEq] at h
      obtain ⟨-, hr⟩ := h
      subst hr
      have hsplit := congrArg List.length
        (List.takeWhile_append_dropWhile (p := isDigitChar) (l := cs))
      rw [List.length_append] at hsplit
      have hpos : 0 < (cs.takeWhile isDigitChar).length := by
        rcases hcs : cs.takeWhile isDigitChar with _ | ⟨d, ds⟩
        · rw [hcs] at he
          simp at he
        · simp
      omega
    · rw [if_neg he, if_neg hb] at h
      exact Option.noConfusion h

theorem genericParse_length {cs : List Char} {g : GenericMana} {r : List Char}
    (h : GenericMana.parse cs = some (g, r)) : r.length < cs.length := by
  unfold GenericMana.parse at h
  split at h <;> simp_all
  obtain ⟨n, hn, -⟩ := h
  exact parseNumber_length hn

theorem parseSplitColorless_length {cs : List Char} {s : SplitMana} {r : List Char}
    (h : parseSplitColorless cs = some (s, r)) : r.length < cs.length := by
  unfold parseSplitColorless at h
  split at h <;> simp_all
  obtain ⟨c, hc, -⟩ := h
  have := colorParse_length hc
  omega

theorem parseSplitDuoP_length {cs : List Char} {s : SplitMana} {r : List Char}
    (h : parseSplitDuoP cs = some (s, r)) : r.length < cs.length := by
  unfold parseSplitDuoP at h
  split at h
  · rename_i a r2 ha
    split at h
    · rename_i b r4 hb
      cases h
      have h1 := colorParse_length ha
      have h2 := colorParse_length hb
      simp at h1 h2
      omega
    · simp at h
  · simp at h

theorem parseSplitDuo_length {cs : List Char} {s : SplitMana} {r : List Char}
    (h : parseSplitDuo cs = some (s, r)) : r.length < cs.length := by
  unfold parseSplitDuo at h
  split at h
  · rename_i a r2 ha
    split at h
    · rename_i b r3 hb
      cases h
      have h1 := colorParse_length ha
      have h2 := colorParse_length hb
      simp at h1
      omega
    · simp at h
  · simp at h

theorem parseSplitMono_length {cs : List Char} {s : SplitMana} {r : List Char}
    (h : parseSplitMono cs = some (s, r)) : r.length < cs.length := by
  unfold parseSplitMono at h
  split at h
  · rename_i n r2 hn
    split at h
    · rename_i c r3 hc
      cases h
      have h1 := parseNumber_length hn
      have h2 := colorParse_length hc
      simp at h1
      omega
    · simp at h
  · simp at h

theorem pAlt_cases {a b : Option (α × List Char)} {v : α} {r : List Char}
    (h : pAlt a b = some (v, r)) : a = some (v, r) ∨ b = some (v, r) := by
  unfold pAlt at h
  split at h <;> simp_all

theorem splitParse_length {cs : List Char} {s : SplitMana} {r : List Char}
    (h : SplitMana.parse cs = some (s, r)) : r.length < cs.length := by
  unfold SplitMana.parse at h
  rcases pAlt_cases h with h | h
  · exact parseSplitColorless_length h
  rcases pAlt_cases h with h | h
  · exact parseSplitDuoP_length h
  rcases pAlt_cases h with h | h
  · exact parseSplitDuo_length h
  · exact parseSplitMono_length h

theorem parseSinglePhyrexian_length {cs : List Char} {s : SingleMana} {r : List Char}
    (h : parseSinglePhyrexian cs = some (s, r)) : r.length < cs.length := by
  unfold parseSinglePhyrexian at h
  split at h
  · rename_i c r2 hc
    cases h
    have h1 := colorParse_length hc
    simp at h1
    omega
  · simp at h

theorem singleParse_length {cs : List Char} {s : SingleMana} {r : List Char}
    (h : SingleMana.parse cs = some (s, r)) : r.length < cs.length := by
  unfold SingleMana.parse at h
  rcases pAlt_cases h with h | h
  · exact parseSinglePhyrexian_length h
  · simp only [Option.map_eq_some'] at h
    obtain ⟨⟨c, r1⟩, hc, h1⟩ := h
    cases h1
    exact colorParse_length hc

theorem Mana.parse_inner_length {cs : List Char} {m : Mana} {r : List Char}
    (h : Mana.parse_inner cs = some (m, r)) : r.length < cs.length := by
  unfold Mana.parse_inner at h
  rcases pAlt_cases h with h | h
  · simp only [Option.map_eq_some'] at h
    obtain ⟨⟨s, r1⟩, hs, h1⟩ := h
    cases h1
    exact splitParse_length hs
  rcases pAlt_cases h with h | h
  · simp only [Option.map_eq_some'] at h
    obtain ⟨⟨g, r1⟩, hg, h1⟩ := h
    cases h1
    exact genericParse_length hg
  rcases pAlt_cases h with h | h
  · simp only [Option.map_eq_some'] at h
    obtain ⟨⟨s, r1⟩, hs, h1⟩ := h
    cases h1
    exact singleParse_length hs
  rcases pAlt_cases h with h | h
  · split at h <;> simp_all
  · split at h <;> simp_all

theorem manaParse_length {cs : List Char} {m : Mana} {r : List Char}
    (h : Mana.parse cs = some (m, r)) : r.length < cs.length := by
  unfold Mana.parse at h
  rcases pAlt_cases h with h | h
  · unfold Mana.parse_braced at h
    split at h
    · rename_i cs' r1
      split at h
      · rename_i m' r2 hinner
        cases h
        have := Mana.parse_inner_length hinner
        simp at this ⊢
        omega
      · simp at h
    · simp at h
  · exact Mana.parse_inner_length h

/-- With at least `length + 1` fuel the fuel-driven `many0` loop no longer
depends on the fuel. -/
theorem parseManasFuel_congr {cs : List Char} {f1 f2 : Nat}
    (h1 : cs.length < f1) (h2 : cs.length < f2) :
    parseManasFuel f1 cs = parseManasFuel f2 cs := by
  induction f1 generalizing cs f2 with
  | zero => omega
  | succ f1 ih =>
    cases f2 with
    | zero => omega
    | succ f2 =>
      unfold parseManasFuel
      cases hp : Mana.parse cs with
      | none => rfl
      | some v =>
        obtain ⟨m, r⟩ := v
        have hr := manaParse_length hp
        simp only [hp]
        rw [ih (show r.length < f1 by omega) (show r.length < f2 by omega)]

/-- The recursion equation of the `many0` loop, fuel eliminated. -/
theorem parseManas_eq (cs : List Char) :
    parseManas cs =
      match Mana.parse cs with
      | none => ([], cs)
      | some (m, r) => ((parseManas r).1.cons m, (parseManas r).2) := by
  unfold parseManas
  conv_lhs => rw [parseManasFuel]
  cases hp : Mana.parse cs with
  | none => rfl
  | some v =>
    obtain ⟨m, r⟩ := v
    have := manaParse_length hp
    simp only
    rw [parseManasFuel_congr (show r.length < cs.length by omega)
      (show r.length < r.length + 1 by omega)]

/-! ## Concrete scenarios and counterexamples (claims C1, C2, C3, C8, C9) -/

/-- **C1.** Parsing the cost string
`{R/P}{X}{C/U}{2/B}{W}{W/U}{B}{B/R/P}{2/R}{G}{C}{G/W/P}{S}{4}{Y}{R/W}`,
applying `normalize_hybrid` and then `sort`, and rendering the result
produces exactly
`{X}{Y}{4}{2/B}{2/R}{C}{C/U}{B}{B/R/P}{R/P}{R/W}{G}{G/W/P}{W}{W/U}{S}`. -/
theorem claim_C1_sort_scenario :
    (Manas.from_str
        (String.toList
          "{R/P}{X}{C/U}{2/B}{W}{W/U}{B}{B/R/P}{2/R}{G}{C}{G/W/P}{S}{4}{Y}{R/W}")).map
      (fun l => Manas.render (Manas.sort (Manas.normalize_hybrid l))) =
    some (String.toList
      "{X}{Y}{4}{2/B}{2/R}{C}{C/U}{B}{B/R/P}{R/P}{R/W}{G}{G/W/P}{W}{W/U}{S}") := by
  decide

/-- **C2, counterexample.** The claim states that whole-cost parsing fails
on any input that is not a concatenation of brace-wrapped groups — in
particular that the bare symbol text `"U"` is a parse failure.  In fact
`Manas::from_str "U"` succeeds (the symbol parser accepts both the braced
and the unbraced form of each symbol), while `"U "` and `" U"` do fail. -/
theorem claim_C2_counterexample :
    Manas.from_str (String.toList "U") = some [Mana.single (.normal .blue)] ∧
    Manas.from_str (String.toList "U ") = none ∧
    Manas.from_str (String.toList " U") = none := by
  decide

/-- **C3, counterexample.** The round trip `render (parse s) = s` fails on
two families of syntactically valid symbol texts: digit runs with leading
zeros (`"00"` parses to `Number 0`, which renders as `"0"`), and
brace-wrapped texts (`"{U}"` parses to blue, which renders as `"U"`). -/
theorem claim_C3_counterexample :
    Mana.from_str (String.toList "00") = some (Mana.generic (.number 0)) ∧
    (Mana.generic (GenericMana.number 0)).render ≠ String.toList "00" ∧
    Mana.from_str (String.toList "{U}") = some (Mana.single (.normal .blue)) ∧
    (Mana.single (SingleMana.normal .blue)).render ≠ String.toList "{U}" := by
  decide

/-- **C8.** `Mana::mana_value` returns `v` for `Number v`, 0 for `X`, `Y`
and `Z`, the value field for a `Mono` split, and 1 for `Duo`,
colorless-hybrid, normal and phyrexian singles, plain colorless and snow;
`Manas::mana_value` sums the elements, so the value of the parse of
`"{X}{Y}{4}{2/B}"` is 6. -/
theorem claim_C8_mana_values :
    (∀ v : Nat, (Mana.generic (.number v)).mana_value = v) ∧
    (Mana.generic .x).mana_value = 0 ∧
    (Mana.generic .y).mana_value = 0 ∧
    (Mana.generic .z).mana_value = 0 ∧
    (∀ (v : Nat) (c : Color), (Mana.split (.mono v c)).mana_value = v) ∧
    (∀ (a b : Color) (p : Bool), (Mana.split (.duo a b p)).mana_value = 1) ∧
    (∀ c : Color, (Mana.split (.colorless c)).mana_value = 1) ∧
    (∀ c : Color, (Mana.single (.normal c)).mana_value = 1) ∧
    (∀ c : Color, (Mana.single (.phyrexian c)).mana_value = 1) ∧
    Mana.colorless.mana_value = 1 ∧
    Mana.snow.mana_value = 1 ∧
    (∀ l : List Mana, Manas.mana_value l = (l.map Mana.mana_value).sum) ∧
    (Manas.from_str (String.toList "{X}{Y}{4}{2/B}")).map Manas.mana_value = some 6 := by
  refine ⟨fun v => rfl, rfl, rfl, rfl, fun v c => rfl, fun a b p => rfl, fun c => rfl,
    fun c => rfl, fun c => rfl, rfl, rfl, fun l => rfl, by decide⟩

/-- **C9, counterexample.** There are 25 — not 30 — subsets of 2 to 4
colors; the 25 anchor/shape constructions produce exactly these (pairwise
distinct), and a non-empty, non-full subset of size 1 such as `{White}`
(mask 1) is produced by no anchor/shape pair at all. -/
theorem claim_C9_counterexample :
    producedMasks.length = 25 ∧
    producedMasks.Nodup ∧
    1 ∉ producedMasks ∧
    ((List.range 32).filter (fun m => decide (2 ≤ maskSize m) && decide (maskSize m ≤ 4))).length
      = 25 := by
  decide

/-- **C9, amended.** The subset masks written by the 25 distinct
anchor/shape constructions of `ORDER_ARRAY` are pairwise distinct — so no
table row is ever written twice — and they are exactly the 25 subsets of
2 to 4 colors (subsets of size ≤ 1 and the full subset are not among
them). -/
theorem claim_C9_order_array_writes :
    producedMasks.Nodup ∧
    producedMasks.length = 25 ∧
    (∀ m ∈ producedMasks, 2 ≤ maskSize m ∧ maskSize m ≤ 4) ∧
    (∀ m ∈ List.range 32, 2 ≤ maskSize m → maskSize m ≤ 4 → m ∈ producedMasks) := by
  decide

/-! ## Hybrid normalization (claim C4) -/

/-- Pointwise: normalizing any symbol leaves every `Duo` canonically
ordered (by exhausting the 5 × 5 × 2 duos). -/
theorem duoOrdered_normalize_hybrid (m : Mana) :
    duoOrdered m.normalize_hybrid = true := by
  cases m with
  | split s =>
    cases s with
    | duo a b p => cases a <;> cases b <;> cases p <;> decide
    | mono v c => rfl
    | colorless c => rfl
  | single s => rfl
  | generic g => rfl
  | colorless => rfl
  | snow => rfl

/-- **C4.** After `Manas::normalize_hybrid`, every `Duo` element has
`rank a ≤ rank b` in the rank row of the 2-color subset `{a, b}`;
`SplitMana::normalize` is a no-op on `Mono` and `Colorless` hybrids and
swaps a `Duo`'s halves exactly when `rank a > rank b`. -/
theorem claim_C4_normalize_hybrid_canonical :
    (∀ (l : List Mana) (m : Mana), m ∈ Manas.normalize_hybrid l → duoOrdered m = true) ∧
    (∀ (v : Nat) (c : Color), (SplitMana.mono v c).normalize = .mono v c) ∧
    (∀ c : Color, (SplitMana.colorless c).normalize = .colorless c) ∧
    (∀ (a b : Color) (p : Bool),
      orderOf (setColor (setColor 0 a) b) a > orderOf (setColor (setColor 0 a) b) b →
      (SplitMana.duo a b p).normalize = .duo b a p) := by
  refine ⟨?_, fun v c => rfl, fun c => rfl, ?_⟩
  · intro l m hm
    rw [Manas.normalize_hybrid, List.mem_map] at hm
    obtain ⟨m₀, -, rfl⟩ := hm
    exact duoOrdered_normalize_hybrid m₀
  · intro a b p h
    rw [SplitMana.normalize]
    simp only [gt_iff_lt] at h
    rw [if_pos h]

/-- Witness for **C4** at a concrete input: `W/G` is the non-canonical
order for the subset `{White, Green}`, and normalization swaps it. -/
theorem claim_C4_witness :
    duoOrdered (Mana.split (SplitMana.duo .green .white false)) = true ∧
    (SplitMana.duo .white .green false).normalize = .duo .green .white false :=
  ⟨claim_C4_normalize_hybrid_canonical.1 [Mana.split (.duo .white .green false)]
      (Mana.split (SplitMana.duo .green .white false)) (by decide),
    claim_C4_normalize_hybrid_canonical.2.2.2 .white .green false (by decide)⟩

/-! ## Stable sorting

The generic theory of `insertKeyed` / `stableSortByKey`: it permutes, it
sorts, it is the identity on sorted input, and it commutes with `filter`
(the latter is the precise form of stability used throughout). -/

section StableSort

variable {α : Type*} (key : α → Nat)

theorem insertKeyed_perm (x : α) (l : List α) :
    (insertKeyed key x l).Perm (x :: l) := by
  induction l with
  | nil => rfl
  | cons y ys ih =>
    rw [insertKeyed]
    split
    · exact List.Perm.refl _
    · exact (ih.cons y).trans (List.Perm.swap x y ys)

theorem mem_insertKeyed {x z : α} {l : List α} (h : z ∈ insertKeyed key x l) :
    z = x ∨ z ∈ l := by
  have := (insertKeyed_perm key x l).mem_iff.mp h
  simpa using this

theorem stableSortByKey_perm (l : List α) :
    (stableSortByKey key l).Perm l := by
  induction l with
  | nil => rfl
  | cons x xs ih =>
    rw [stableSortByKey]
    exact (insertKeyed_perm key x _).trans (ih.cons x)

theorem insertKeyed_pairwise {x : α} {l : List α}
    (h : l.Pairwise (fun a b => key a ≤ key b)) :
    (insertKeyed key x l).Pairwise (fun a b => key a ≤ key b) := by
  induction l with
  | nil => simp [insertKeyed]
  | cons y ys ih =>
    rw [List.pairwise_cons] at h
    obtain ⟨hy, hys⟩ := h
    rw [insertKeyed]
    split
    · rename_i hxy
      refine List.pairwise_cons.mpr ⟨?_, List.pairwise_cons.mpr ⟨hy, hys⟩⟩
      intro z hz
      rcases List.mem_cons.mp hz with rfl | hz
      · exact hxy
      · exact le_trans hxy (hy z hz)
    · rename_i hxy
      refine List.pairwise_cons.mpr ⟨?_, ih hys⟩
      intro z hz
      rcases mem_insertKeyed key hz with rfl | hz
      · omega
      · exact hy z hz

theorem stableSortByKey_pairwise (l : List α) :
    (stableSortByKey key l).Pairwise (fun a b => key a ≤ key b) := by
  induction l with
  | nil => simp [stableSortByKey]
  | cons x xs ih => exact insertKeyed_pairwise key ih

theorem insertKeyed_eq_cons {x : α} {l : List α}
    (h : ∀ y ∈ l, key x ≤ key y) : insertKeyed key x l = x :: l := by
  cases l with
  | nil => rfl
  | cons y ys =>
    rw [insertKeyed, if_pos (h y (List.mem_cons_self y ys))]

theorem stableSortByKey_eq_self (l : List α)
    (h : l.Pairwise (fun a b => key a ≤ key b)) : stableSortByKey key l = l := by
  induction l with
  | nil => rfl
  | cons x xs ih =>
    rw [List.pairwise_cons] at h
    obtain ⟨hx, hxs⟩ := h
    rw [stableSortByKey, ih hxs]
    exact insertKeyed_eq_cons key hx

theorem stableSortByKey_idem (l : List α) :
    stableSortByKey key (stableSortByKey key l) = stableSortByKey key l :=
  stableSortByKey_eq_self key _ (stableSortByKey_pairwise key l)

theorem pairwise_of_const_key {l : List α} {k : Nat} (h : ∀ a ∈ l, key a = k) :
    l.Pairwise (fun a b => key a ≤ key b) := by
  induction l with
  | nil => simp
  | cons x xs ih =>
    refine List.pairwise_cons.mpr ⟨?_, ih fun a ha => h a (List.mem_cons_of_mem x ha)⟩
    intro z hz
    rw [h x (List.mem_cons_self x xs), h z (List.mem_cons_of_mem x hz)]

theorem filter_insertKeyed (p : α → Bool) {x : α} {l : List α}
    (h : l.Pairwise (fun a b => key a ≤ key b)) :
    (insertKeyed key x l).filter p =
      if p x then insertKeyed key x (l.filter p) else l.filter p := by
  induction l with
  | nil => cases hp : p x <;> simp [insertKeyed, hp]
  | cons y ys ih =>
    rw [List.pairwise_cons] at h
    obtain ⟨hy, hys⟩ := h
    rw [insertKeyed]
    split
    · rename_i hxy
      have hxf : ∀ z ∈ (y :: ys).filter p, key x ≤ key z := by
        intro z hz
        rcases List.mem_cons.mp (List.mem_of_mem_filter hz) with rfl | hz''
        · exact hxy
        · exact le_trans hxy (hy z hz'')
      cases hp : p x
      · rw [List.filter_cons_of_neg (by simp [hp]), if_neg (by simp [hp])]
      · rw [List.filter_cons_of_pos (by simp [hp]), if_pos (by simp [hp]),
          insertKeyed_eq_cons key hxf]
    · rename_i hxy
      have hins : insertKeyed key x (y :: ys.filter p) = y :: insertKeyed key x (ys.filter p) := by
        rw [insertKeyed, if_neg hxy]
      cases hp : p x <;> cases hq : p y <;>
        simp [List.filter_cons, hp, hq, ih hys, hins]

theorem filter_stableSortByKey (p : α → Bool) (l : List α) :
    (stableSortByKey key l).filter p = stableSortByKey key (l.filter p) := by
  induction l with
  | nil => rfl
  | cons x xs ih =>
    rw [stableSortByKey, filter_insertKeyed key p (stableSortByKey_pairwise key xs), ih]
    cases hp : p x
    · rw [if_neg (by simp [hp]), List.filter_cons_of_neg (by simp [hp])]
    · rw [if_pos (by simp [hp]), List.filter_cons_of_pos (by simp [hp]), stableSortByKey]

theorem sorted_takeWhile_filter (p : α → Bool) (l : List α)
    (hs : l.Pairwise (fun a b => key a ≤ key b))
    (hdc : ∀ a ∈ l, ∀ b ∈ l, key a ≤ key b → p b = true → p a = true) :
    l.takeWhile p = l.filter p ∧ l.dropWhile p = l.filter (fun x => !(p x)) := by
  induction l with
  | nil => simp
  | cons x xs ih =>
    rw [List.pairwise_cons] at hs
    obtain ⟨hx, hxs⟩ := hs
    have hdc' : ∀ a ∈ xs, ∀ b ∈ xs, key a ≤ key b → p b = true → p a = true := by
      intro a ha b hb
      exact hdc a (List.mem_cons_of_mem x ha) b (List.mem_cons_of_mem x hb)
    obtain ⟨iht, ihd⟩ := ih hxs hdc'
    cases hp : p x
    · have hnone : ∀ y ∈ xs, p y = false := by
        intro y hy
        cases hq : p y
        · rfl
        · have := hdc x (List.mem_cons_self x xs) y (List.mem_cons_of_mem x hy)
            (hx y hy) hq
          simp [this] at hp
      constructor
      · rw [List.takeWhile_cons_of_neg (by simp [hp]), List.filter_cons_of_neg (by simp [hp]),
          List.filter_eq_nil_iff.mpr (by intro a ha; simp [hnone a ha])]
      · rw [List.dropWhile_cons_of_neg (by simp [hp]), List.filter_cons_of_pos (by simp [hp])]
        congr 1
        exact (List.filter_eq_self.mpr (by intro a ha; simp [hnone a ha])).symm
    · constructor
      · rw [List.takeWhile_cons_of_pos (by simp [hp]), List.filter_cons_of_pos (by simp [hp]),
          iht]
      · rw [List.dropWhile_cons_of_pos (by simp [hp]), List.filter_cons_of_neg (by simp [hp]),
          ihd]

end StableSort

/-! ## The bucket predicates, via the primary key -/

theorem isGeneric_eq_key : isGeneric = fun m => decide (primaryKey m ≤ 3) := by
  funext m
  cases m with
  | generic g => cases g <;> rfl
  | split s => cases s <;> rfl
  | single s => rfl
  | colorless => rfl
  | snow => rfl

theorem isMono_eq_key : isMono = fun m => decide (primaryKey m = 4) := by
  funext m
  cases m with
  | generic g => cases g <;> rfl
  | split s => cases s <;> rfl
  | single s => rfl
  | colorless => rfl
  | snow => rfl

theorem isColorlessMana_eq_key : isColorlessMana = fun m => decide (primaryKey m = 5) := by
  funext m
  cases m with
  | generic g => cases g <;> rfl
  | split s => cases s <;> rfl
  | single s => rfl
  | colorless => rfl
  | snow => rfl

theorem isColorlessHybrid_eq_key : isColorlessHybrid = fun m => decide (primaryKey m = 6) := by
  funext m
  cases m with
  | generic g => cases g <;> rfl
  | split s => cases s <;> rfl
  | single s => rfl
  | colorless => rfl
  | snow => rfl

theorem isColored_eq_key : isColored = fun m => decide (primaryKey m = 7) := by
  funext m
  cases m with
  | generic g => cases g <;> rfl
  | split s => cases s <;> rfl
  | single s => rfl
  | colorless => rfl
  | snow => rfl

theorem isSnow_eq_key : isSnow = fun m => decide (primaryKey m = 8) := by
  funext m
  cases m with
  | generic g => cases g <;> rfl
  | split s => cases s <;> rfl
  | single s => rfl
  | colorless => rfl
  | snow => rfl

theorem filter_filter_subsume {α : Type*} {p q : α → Bool}
    (h : ∀ a, p a = true → q a = true) (l : List α) :
    (l.filter q).filter p = l.filter p := by
  induction l with
  | nil => rfl
  | cons x xs ih =>
    cases hq : q x
    · have hp : p x = false := by
        cases hp : p x
        · rfl
        · have := h x hp
          rw [this] at hq
          exact hq
      rw [List.filter_cons_of_neg (by simp [hq]), List.filter_cons_of_neg (by simp [hp]), ih]
    · cases hp : p x
      · rw [List.filter_cons_of_pos (by simp [hq]), List.filter_cons_of_neg (by simp [hp]),
          List.filter_cons_of_neg (by simp [hp]), ih]
      · rw [List.filter_cons_of_pos (by simp [hq]), List.filter_cons_of_pos (by simp [hp]),
          List.filter_cons_of_pos (by simp [hp]), ih]

theorem isMono_not_generic (a : Mana) (h : isMono a = true) : (!isGeneric a) = true := by
  cases a <;> first | rfl | simp [isMono] at h

theorem isColorlessMana_not_generic (a : Mana) (h : isColorlessMana a = true) :
    (!isGeneric a) = true := by
  cases a <;> first | rfl | simp [isColorlessMana] at h

theorem isColorlessMana_not_mono (a : Mana) (h : isColorlessMana a = true) :
    (!isMono a) = true := by
  cases a <;> first | rfl | simp [isColorlessMana] at h

theorem isColorlessHybrid_not_generic (a : Mana) (h : isColorlessHybrid a = true) :
    (!isGeneric a) = true := by
  cases a with
  | split s => cases s <;> first | rfl | simp [isColorlessHybrid] at h
  | _ => first | rfl | simp [isColorlessHybrid] at h

theorem isColorlessHybrid_not_mono (a : Mana) (h : isColorlessHybrid a = true) :
    (!isMono a) = true := by
  cases a with
  | split s => cases s <;> first | rfl | simp [isColorlessHybrid] at h
  | _ => first | rfl | simp [isColorlessHybrid] at h

theorem isColorlessHybrid_not_colorless (a : Mana) (h : isColorlessHybrid a = true) :
    (!isColorlessMana a) = true := by
  cases a <;> first | rfl | simp [isColorlessHybrid] at h

theorem isColored_not_generic (a : Mana) (h : isColored a = true) :
    (!isGeneric a) = true := by
  cases a <;> first | rfl | simp [isColored] at h

theorem isColored_not_mono (a : Mana) (h : isColored a = true) : (!isMono a) = true := by
  cases a with
  | split s => cases s <;> first | rfl | simp [isColored] at h
  | _ => first | rfl | simp [isColored] at h

theorem isColored_not_colorless (a : Mana) (h : isColored a = true) :
    (!isColorlessMana a) = true := by
  cases a <;> first | rfl | simp [isColored] at h

theorem isColored_not_hybrid (a : Mana) (h : isColored a = true) :
    (!isColorlessHybrid a) = true := by
  cases a with
  | split s => cases s <;> first | rfl | simp [isColored] at h
  | _ => first | rfl | simp [isColored] at h

theorem mono_chain (l : List Mana) :
    (l.filter (fun x => !isGeneric x)).filter isMono = l.filter isMono :=
  filter_filter_subsume isMono_not_generic l

theorem colorlessMana_chain (l : List Mana) :
    ((l.filter (fun x => !isGeneric x)).filter (fun x => !isMono x)).filter isColorlessMana =
      l.filter isColorlessMana := by
  rw [filter_filter_subsume isColorlessMana_not_mono,
    filter_filter_subsume isColorlessMana_not_generic]

theorem colorlessHybrid_chain (l : List Mana) :
    (((l.filter (fun x => !isGeneric x)).filter (fun x => !isMono x)).filter
      (fun x => !isColorlessMana x)).filter isColorlessHybrid =
      l.filter isColorlessHybrid := by
  rw [filter_filter_subsume isColorlessHybrid_not_colorless,
    filter_filter_subsume isColorlessHybrid_not_mono,
    filter_filter_subsume isColorlessHybrid_not_generic]

theorem colored_chain (l : List Mana) :
    ((((l.filter (fun x => !isGeneric x)).filter (fun x => !isMono x)).filter
      (fun x => !isColorlessMana x)).filter (fun x => !isColorlessHybrid x)).filter
      isColored = l.filter isColored := by
  rw [filter_filter_subsume isColored_not_hybrid,
    filter_filter_subsume isColored_not_colorless,
    filter_filter_subsume isColored_not_mono,
    filter_filter_subsume isColored_not_generic]

theorem snow_chain (l : List Mana) :
    ((((l.filter (fun x => !isGeneric x)).filter (fun x => !isMono x)).filter
      (fun x => !isColorlessMana x)).filter (fun x => !isColorlessHybrid x)).filter
      (fun x => !isColored x) = l.filter isSnow := by
  induction l with
  | nil => rfl
  | cons x xs ih =>
    cases x with
    | generic g =>
      simp [-List.filter_filter, List.filter_cons,
        show isGeneric (Mana.generic g) = true from rfl,
        show isSnow (Mana.generic g) = false from rfl, Bool.not_true, ih]
    | split s =>
      cases s with
      | mono v c =>
        simp [-List.filter_filter, List.filter_cons,
          show isGeneric (Mana.split (.mono v c)) = false from rfl,
          show isMono (Mana.split (.mono v c)) = true from rfl,
          show isSnow (Mana.split (.mono v c)) = false from rfl,
          Bool.not_true, Bool.not_false, if_true, if_false, ite_true, ite_false, ih]
      | colorless c =>
        simp [-List.filter_filter, List.filter_cons,
          show isGeneric (Mana.split (.colorless c)) = false from rfl,
          show isMono (Mana.split (.colorless c)) = false from rfl,
          show isColorlessMana (Mana.split (.colorless c)) = false from rfl,
          show isColorlessHybrid (Mana.split (.colorless c)) = true from rfl,
          show isSnow (Mana.split (.colorless c)) = false from rfl,
          Bool.not_true, Bool.not_false, if_true, if_false, ite_true, ite_false, ih]
      | duo a b p =>
        simp [-List.filter_filter, List.filter_cons,
          show isGeneric (Mana.split (.duo a b p)) = false from rfl,
          show isMono (Mana.split (.duo a b p)) = false from rfl,
          show isColorlessMana (Mana.split (.duo a b p)) = false from rfl,
          show isColorlessHybrid (Mana.split (.duo a b p)) = false from rfl,
          show isColored (Mana.split (.duo a b p)) = true from rfl,
          show isSnow (Mana.split (.duo a b p)) = false from rfl,
          Bool.not_true, Bool.not_false, if_true, if_false, ite_true, ite_false, ih]
    | single s =>
      simp [-List.filter_filter, List.filter_cons,
        show isGeneric (Mana.single s) = false from rfl,
        show isMono (Mana.single s) = false from rfl,
        show isColorlessMana (Mana.single s) = false from rfl,
        show isColorlessHybrid (Mana.single s) = false from rfl,
        show isColored (Mana.single s) = true from rfl,
        show isSnow (Mana.single s) = false from rfl,
        Bool.not_true, Bool.not_false, if_true, if_false, ite_true, ite_false, ih]
    | colorless =>
      simp [-List.filter_filter, List.filter_cons,
        show isGeneric Mana.colorless = false from rfl,
        show isMono Mana.colorless = false from rfl,
        show isColorlessMana Mana.colorless = true from rfl,
        show isSnow Mana.colorless = false from rfl,
        Bool.not_true, Bool.not_false, if_true, if_false, ite_true, ite_false, ih]
    | snow =>
      simp [-List.filter_filter, List.filter_cons,
        show isGeneric Mana.snow = false from rfl,
        show isMono Mana.snow = false from rfl,
        show isColorlessMana Mana.snow = false from rfl,
        show isColorlessHybrid Mana.snow = false from rfl,
        show isColored Mana.snow = false from rfl,
        show isSnow Mana.snow = true from rfl,
        Bool.not_true, Bool.not_false, if_true, if_false, ite_true, ite_false, ih]

/-! ## `Manas::sort` as filters

The first pass is a stable sort, so the `take_while`/`skip` slicing of the
sorted sequence recovers exactly the bucket filters of the input. -/

theorem sort_eq_canonicalForm (l : List Mana) : Manas.sort l = canonicalForm l := by
  have hs1 : (stableSortByKey primaryKey l).Pairwise
      (fun a b => primaryKey a ≤ primaryKey b) := stableSortByKey_pairwise _ l
  set l1 := stableSortByKey primaryKey l with hl1
  -- generic block
  have hG := sorted_takeWhile_filter primaryKey isGeneric l1 hs1 (by
    intro a _ b _ hab hb
    rw [isGeneric_eq_key] at hb ⊢
    simp only [decide_eq_true_eq] at hb ⊢
    omega)
  -- the mono block, inside the suffix with keys ≥ 4
  have hr1mem : ∀ a ∈ l1.filter (fun x => !isGeneric x), 4 ≤ primaryKey a := by
    intro a ha
    have := (List.mem_filter.mp ha).2
    rw [isGeneric_eq_key] at this
    simp only [Bool.not_eq_eq_eq_not, Bool.not_true, decide_eq_false_iff_not] at this
    omega
  have hM := sorted_takeWhile_filter primaryKey isMono
    (l1.filter (fun x => !isGeneric x)) (hs1.filter _) (by
      intro a ha b hb hab hb'
      rw [isMono_eq_key] at hb' ⊢
      simp only [decide_eq_true_eq] at hb' ⊢
      have := hr1mem a ha
      omega)
  have hr2mem : ∀ a ∈ (l1.filter (fun x => !isGeneric x)).filter (fun x => !isMono x),
      5 ≤ primaryKey a := by
    intro a ha
    have h1 := hr1mem a (List.mem_of_mem_filter ha)
    have h2 := (List.mem_filter.mp ha).2
    rw [isMono_eq_key] at h2
    simp only [Bool.not_eq_eq_eq_not, Bool.not_true, decide_eq_false_iff_not] at h2
    omega
  have hC := sorted_takeWhile_filter primaryKey isColorlessMana
    ((l1.filter (fun x => !isGeneric x)).filter (fun x => !isMono x))
    ((hs1.filter _).filter _) (by
      intro a ha b hb hab hb'
      rw [isColorlessMana_eq_key] at hb' ⊢
      simp only [decide_eq_true_eq] at hb' ⊢
      have := hr2mem a ha
      omega)
  have hr3mem : ∀ a ∈ ((l1.filter (fun x => !isGeneric x)).filter
      (fun x => !isMono x)).filter (fun x => !isColorlessMana x), 6 ≤ primaryKey a := by
    intro a ha
    have h1 := hr2mem a (List.mem_of_mem_filter ha)
    have h2 := (List.mem_filter.mp ha).2
    rw [isColorlessMana_eq_key] at h2
    simp only [Bool.not_eq_eq_eq_not, Bool.not_true, decide_eq_false_iff_not] at h2
    omega
  have hH := sorted_takeWhile_filter primaryKey isColorlessHybrid
    (((l1.filter (fun x => !isGeneric x)).filter (fun x => !isMono x)).filter
      (fun x => !isColorlessMana x))
    (((hs1.filter _).filter _).filter _) (by
      intro a ha b hb hab hb'
      rw [isColorlessHybrid_eq_key] at hb' ⊢
      simp only [decide_eq_true_eq] at hb' ⊢
      have := hr3mem a ha
      omega)
  have hr4mem : ∀ a ∈ (((l1.filter (fun x => !isGeneric x)).filter
      (fun x => !isMono x)).filter (fun x => !isColorlessMana x)).filter
      (fun x => !isColorlessHybrid x), 7 ≤ primaryKey a := by
    intro a ha
    have h1 := hr3mem a (List.mem_of_mem_filter ha)
    have h2 := (List.mem_filter.mp ha).2
    rw [isColorlessHybrid_eq_key] at h2
    simp only [Bool.not_eq_eq_eq_not, Bool.not_true, decide_eq_false_iff_not] at h2
    omega
  have hD := sorted_takeWhile_filter primaryKey isColored
    ((((l1.filter (fun x => !isGeneric x)).filter (fun x => !isMono x)).filter
      (fun x => !isColorlessMana x)).filter (fun x => !isColorlessHybrid x))
    ((((hs1.filter _).filter _).filter _).filter _) (by
      intro a ha b hb hab hb'
      rw [isColored_eq_key] at hb' ⊢
      simp only [decide_eq_true_eq] at hb' ⊢
      have := hr4mem a ha
      omega)
  rw [Manas.sort, canonicalForm]
  simp only [← hl1]
  rw [hG.1, hG.2, hM.1, hM.2, hC.1, hC.2, hH.1, hH.2, hD.1, hD.2]
  rw [mono_chain, colorlessMana_chain, colorlessHybrid_chain, colored_chain, snow_chain]
  rw [hl1, filter_stableSortByKey, filter_stableSortByKey, filter_stableSortByKey,
    filter_stableSortByKey, filter_stableSortByKey, filter_stableSortByKey]
  rw [stableSortByKey_eq_self primaryKey (l.filter isMono)
      (pairwise_of_const_key primaryKey (k := 4) (by
        intro a ha
        have := (List.mem_filter.mp ha).2
        rw [isMono_eq_key] at this
        simpa using this)),
    stableSortByKey_eq_self primaryKey (l.filter isColorlessMana)
      (pairwise_of_const_key primaryKey (k := 5) (by
        intro a ha
        have := (List.mem_filter.mp ha).2
        rw [isColorlessMana_eq_key] at this
        simpa using this)),
    stableSortByKey_eq_self primaryKey (l.filter isColorlessHybrid)
      (pairwise_of_const_key primaryKey (k := 6) (by
        intro a ha
        have := (List.mem_filter.mp ha).2
        rw [isColorlessHybrid_eq_key] at this
        simpa using this)),
    stableSortByKey_eq_self primaryKey (l.filter isColored)
      (pairwise_of_const_key primaryKey (k := 7) (by
        intro a ha
        have := (List.mem_filter.mp ha).2
        rw [isColored_eq_key] at this
        simpa using this)),
    stableSortByKey_eq_self primaryKey (l.filter isSnow)
      (pairwise_of_const_key primaryKey (k := 8) (by
        intro a ha
        have := (List.mem_filter.mp ha).2
        rw [isSnow_eq_key] at this
        simpa using this))]

/-! ## `Manas::sort` permutes (claims C10, C6) -/

theorem sortByColors_perm (f : Mana → Color) (l : List Mana) :
    (sortByColors f l).Perm l :=
  stableSortByKey_perm _ l

theorem chunkByGo_flatten {α : Type*} (r : α → α → Bool) (prev : α) (cur : List α)
    (t : List α) : (chunkByGo r prev cur t).flatten = cur.reverse ++ t := by
  induction t generalizing prev cur with
  | nil => simp [chunkByGo]
  | cons y ys ih =>
    rw [chunkByGo]
    split
    · rw [ih]
      simp
    · simp [ih]

theorem chunkBy_flatten {α : Type*} (r : α → α → Bool) (l : List α) :
    (chunkBy r l).flatten = l := by
  cases l with
  | nil => rfl
  | cons x xs =>
    rw [chunkBy, chunkByGo_flatten]
    rfl

theorem flatten_map_perm {α : Type*} {f : List α → List α} (h : ∀ c, (f c).Perm c)
    (L : List (List α)) : ((L.map f).flatten).Perm L.flatten := by
  induction L with
  | nil => rfl
  | cons c cs ih => simpa using (h c).append ih

theorem processChunk_perm (c : List Mana) : (processChunk c).Perm c := by
  rw [processChunk]
  refine (((List.Perm.refl _).append (sortByColors_perm _ _)).append
    (sortByColors_perm _ _)).trans ?_
  rw [List.append_assoc, List.takeWhile_append_dropWhile, List.takeWhile_append_dropWhile]
  exact stableSortByKey_perm _ c

theorem processColored_perm (d : List Mana) : (processColored d).Perm d := by
  rw [processColored]
  have h1 := flatten_map_perm processChunk_perm
    (chunkBy (fun a b => decide (a.left_half_color = b.left_half_color))
      (sortByColors leftColorD d))
  rw [chunkBy_flatten] at h1
  exact h1.trans (sortByColors_perm _ d)

theorem partition_perm (l : List Mana) :
    (l.filter isGeneric ++ (l.filter isMono ++ (l.filter isColorlessMana ++
      (l.filter isColorlessHybrid ++ (l.filter isColored ++ l.filter isSnow))))).Perm l := by
  have e5 : (l.filter isColored ++ l.filter isSnow).Perm
      ((((l.filter (fun x => !isGeneric x)).filter (fun x => !isMono x)).filter
        (fun x => !isColorlessMana x)).filter (fun x => !isColorlessHybrid x)) := by
    rw [← colored_chain l, ← snow_chain l]
    exact List.filter_append_perm isColored _
  have e4 : (l.filter isColorlessHybrid ++ (l.filter isColored ++ l.filter isSnow)).Perm
      (((l.filter (fun x => !isGeneric x)).filter (fun x => !isMono x)).filter
        (fun x => !isColorlessMana x)) := by
    refine ((e5.append_left _)).trans ?_
    rw [← colorlessHybrid_chain l]
    exact List.filter_append_perm isColorlessHybrid _
  have e3 : (l.filter isColorlessMana ++ (l.filter isColorlessHybrid ++
      (l.filter isColored ++ l.filter isSnow))).Perm
      ((l.filter (fun x => !isGeneric x)).filter (fun x => !isMono x)) := by
    refine ((e4.append_left _)).trans ?_
    rw [← colorlessMana_chain l]
    exact List.filter_append_perm isColorlessMana _
  have e2 : (l.filter isMono ++ (l.filter isColorlessMana ++ (l.filter isColorlessHybrid ++
      (l.filter isColored ++ l.filter isSnow)))).Perm
      (l.filter (fun x => !isGeneric x)) := by
    refine ((e3.append_left _)).trans ?_
    rw [← mono_chain l]
    exact List.filter_append_perm isMono _
  refine ((e2.append_left _)).trans ?_
  exact List.filter_append_perm isGeneric l

theorem sort_perm (l : List Mana) : (Manas.sort l).Perm l := by
  rw [sort_eq_canonicalForm, canonicalForm]
  refine List.Perm.trans
    ((((((stableSortByKey_perm _ _).append (sortByColors_perm _ _)).append
      (List.Perm.refl _)).append (sortByColors_perm _ _)).append
        (processColored_perm _)).append (List.Perm.refl _)) ?_
  simp only [List.append_assoc]
  exact partition_perm l

/-- **C10.** `Manas::sort` is a permutation of the element sequence: the
multiset of `Mana` elements is unchanged — nothing is created, dropped or
modified, only reordered. -/
theorem claim_C10_sort_permutation (l : List Mana) : (Manas.sort l).Perm l :=
  sort_perm l

/-- `Mana::normalize_hybrid` does not change a symbol's mana value. -/
theorem mana_value_normalize_hybrid (m : Mana) :
    m.normalize_hybrid.mana_value = m.mana_value := by
  cases m with
  | split s =>
    cases s with
    | duo a b p =>
      rw [Mana.normalize_hybrid, SplitMana.normalize]
      split <;> rfl
    | mono v c => rfl
    | colorless c => rfl
  | single s => rfl
  | generic g => rfl
  | colorless => rfl
  | snow => rfl

/-- **C6.** The total mana value of a `Manas` is unchanged by `sort` and
by `normalize_hybrid`. -/
theorem claim_C6_value_invariant (l : List Mana) :
    Manas.mana_value (Manas.sort l) = Manas.mana_value l ∧
    Manas.mana_value (Manas.normalize_hybrid l) = Manas.mana_value l := by
  constructor
  · exact List.Perm.sum_eq ((sort_perm l).map Mana.mana_value)
  · rw [Manas.mana_value, Manas.mana_value, Manas.normalize_hybrid, List.map_map]
    congr 1
    exact List.map_congr_left fun m _ => mana_value_normalize_hybrid m

/-! ## Stability of the first pass (claim C7) -/

theorem filter_decEq_number_nil {p : Mana → Bool} {l : List Mana} (v : Nat)
    (h : ∀ x ∈ l, p x = true) (hp : p (Mana.generic (.number v)) = false) :
    l.filter (fun x => decide (x = Mana.generic (.number v))) = [] := by
  rw [List.filter_eq_nil_iff]
  intro a ha h'
  have ha' : a = Mana.generic (.number v) := of_decide_eq_true h'
  subst ha'
  rw [h _ ha] at hp
  exact Bool.noConfusion hp

/-- **C7.** The first pass of `Manas::sort` stable-sorts by the primary
bucket key (X = 0, Y = 1, Z = 2, Number = 3, Mono = 4, plain Colorless =
5, Colorless-hybrid = 6, Single/Duo = 7, Snow = 8): the result is
key-sorted, and for every key value the subsequence with that key equals
the input subsequence with that key — ties keep their input order.  In
particular the `Number v` elements, for every `v`, appear in the output of
the complete `sort()` in their input order. -/
theorem claim_C7_sort_stability :
    primaryKey (Mana.generic .x) = 0 ∧
    primaryKey (Mana.generic .y) = 1 ∧
    primaryKey (Mana.generic .z) = 2 ∧
    (∀ v : Nat, primaryKey (Mana.generic (.number v)) = 3) ∧
    (∀ (v : Nat) (c : Color), primaryKey (Mana.split (.mono v c)) = 4) ∧
    primaryKey Mana.colorless = 5 ∧
    (∀ c : Color, primaryKey (Mana.split (.colorless c)) = 6) ∧
    (∀ s : SingleMana, primaryKey (Mana.single s) = 7) ∧
    (∀ (a b : Color) (p : Bool), primaryKey (Mana.split (.duo a b p)) = 7) ∧
    primaryKey Mana.snow = 8 ∧
    (∀ l : List Mana,
      (stableSortByKey primaryKey l).Pairwise (fun a b => primaryKey a ≤ primaryKey b)) ∧
    (∀ (l : List Mana) (k : Nat),
      (stableSortByKey primaryKey l).filter (fun x => decide (primaryKey x = k)) =
        l.filter (fun x => decide (primaryKey x = k))) ∧
    (∀ (l : List Mana) (v : Nat),
      (Manas.sort l).filter (fun x => decide (x = Mana.generic (.number v))) =
        l.filter (fun x => decide (x = Mana.generic (.number v)))) := by
  refine ⟨rfl, rfl, rfl, fun v => rfl, fun v c => rfl, rfl, fun c => rfl, fun s => rfl,
    fun a b p => rfl, rfl, fun l => stableSortByKey_pairwise primaryKey l, ?_, ?_⟩
  · intro l k
    rw [filter_stableSortByKey]
    refine stableSortByKey_eq_self primaryKey _ (pairwise_of_const_key primaryKey (k := k) ?_)
    intro a ha
    exact of_decide_eq_true (List.mem_filter.mp ha).2
  · intro l v
    have h2 : (sortByColors rightColorD (l.filter isMono)).filter
        (fun x => decide (x = Mana.generic (.number v))) = [] :=
      filter_decEq_number_nil v (fun x hx =>
        (List.mem_filter.mp ((sortByColors_perm _ _).mem_iff.mp hx)).2) rfl
    have h3 : (l.filter isColorlessMana).filter
        (fun x => decide (x = Mana.generic (.number v))) = [] :=
      filter_decEq_number_nil v (fun x hx => (List.mem_filter.mp hx).2) rfl
    have h4 : (sortByColors rightColorD (l.filter isColorlessHybrid)).filter
        (fun x => decide (x = Mana.generic (.number v))) = [] :=
      filter_decEq_number_nil v (fun x hx =>
        (List.mem_filter.mp ((sortByColors_perm _ _).mem_iff.mp hx)).2) rfl
    have h5 : (processColored (l.filter isColored)).filter
        (fun x => decide (x = Mana.generic (.number v))) = [] :=
      filter_decEq_number_nil v (fun x hx =>
        (List.mem_filter.mp ((processColored_perm _).mem_iff.mp hx)).2) rfl
    have h6 : (l.filter isSnow).filter
        (fun x => decide (x = Mana.generic (.number v))) = [] :=
      filter_decEq_number_nil v (fun x hx => (List.mem_filter.mp hx).2) rfl
    have h1 : (stableSortByKey primaryKey (l.filter isGeneric)).filter
        (fun x => decide (x = Mana.generic (.number v))) =
        l.filter (fun x => decide (x = Mana.generic (.number v))) := by
      rw [filter_stableSortByKey, filter_filter_subsume (by
          intro a ha
          have : a = Mana.generic (.number v) := of_decide_eq_true ha
          subst this
          rfl)]
      refine stableSortByKey_eq_self primaryKey _
        (pairwise_of_const_key primaryKey (k := 3) ?_)
      intro a ha
      have : a = Mana.generic (.number v) :=
        of_decide_eq_true (List.mem_filter.mp ha).2
      subst this
      rfl
    rw [sort_eq_canonicalForm, canonicalForm]
    rw [List.filter_append, List.filter_append, List.filter_append, List.filter_append,
      List.filter_append, h1, h2, h3, h4, h5, h6]
    simp

/-! ## Idempotence machinery: `sort_by_colors` -/

theorem setColor_comm (s : Nat) (c d : Color) :
    setColor (setColor s c) d = setColor (setColor s d) c := by
  unfold setColor
  rw [Nat.or_assoc, Nat.or_assoc, Nat.or_comm (1 <<< c.toIdx)]

theorem runMask_perm (f : Mana → Color) {L L' : List Mana} (h : L.Perm L') :
    runMask f L = runMask f L' := by
  have key : ∀ s : Nat, L.foldl (fun s x => setColor s (f x)) s =
      L'.foldl (fun s x => setColor s (f x)) s := by
    induction h with
    | nil => intro s; rfl
    | cons x _ ih => intro s; exact ih _
    | swap x y L =>
      intro s
      simp only [List.foldl_cons]
      rw [setColor_comm]
    | trans _ _ ih1 ih2 => intro s; rw [ih1 s, ih2 s]
  exact key 0

theorem sortByColors_pairwise (f : Mana → Color) (L : List Mana) :
    (sortByColors f L).Pairwise
      (fun a b => orderOf (runMask f L) (f a) ≤ orderOf (runMask f L) (f b)) :=
  stableSortByKey_pairwise _ L

theorem sortByColors_idem (f : Mana → Color) (L : List Mana) :
    sortByColors f (sortByColors f L) = sortByColors f L := by
  have hm : runMask f (stableSortByKey (fun x => orderOf (runMask f L) (f x)) L) =
      runMask f L := runMask_perm f (stableSortByKey_perm _ L)
  simp only [sortByColors]
  rw [hm]
  exact stableSortByKey_idem _ L

/-- `sortByColors` is the identity on a run that is already sorted for its
own color subset. -/
theorem sortByColors_eq_self (f : Mana → Color) (L : List Mana)
    (h : L.Pairwise (fun a b => orderOf (runMask f L) (f a) ≤ orderOf (runMask f L) (f b))) :
    sortByColors f L = L :=
  stableSortByKey_eq_self _ L h

/-! ## Idempotence machinery: `chunk_by` -/

section ChunkSpec

variable {α β : Type*} [DecidableEq β] (f : α → β)

theorem chunkByGo_spec (t : List α) : ∀ (prev : α) (cur : List α), cur ≠ [] →
    (∀ x ∈ cur, f x = f prev) →
    ((∀ C ∈ chunkByGo (fun a b => decide (f a = f b)) prev cur t, C ≠ []) ∧
     (∀ C ∈ chunkByGo (fun a b => decide (f a = f b)) prev cur t, ∀ a ∈ C, ∀ b ∈ C, f a = f b) ∧
     (∀ C ∈ (chunkByGo (fun a b => decide (f a = f b)) prev cur t).head?,
       ∀ a ∈ C, f a = f prev) ∧
     List.Chain' (fun C C' => ∀ a ∈ C, ∀ b ∈ C', f a ≠ f b)
       (chunkByGo (fun a b => decide (f a = f b)) prev cur t)) := by
  induction t with
  | nil =>
    intro prev cur hne hval
    rw [chunkByGo]
    refine ⟨?_, ?_, ?_, ?_⟩
    · intro C hC
      rw [List.mem_singleton] at hC
      subst hC
      simpa using hne
    · intro C hC a ha b hb
      rw [List.mem_singleton] at hC
      subst hC
      rw [List.mem_reverse] at ha hb
      rw [hval a ha, hval b hb]
    · intro C hC a ha
      rw [List.head?_cons, Option.mem_some_iff] at hC
      subst hC
      rw [List.mem_reverse] at ha
      exact hval a ha
    · exact List.chain'_singleton _
  | cons y ys ih =>
    intro prev cur hne hval
    rw [chunkByGo]
    by_cases hr : f prev = f y
    · rw [if_pos (decide_eq_true hr)]
      have hval' : ∀ x ∈ y :: cur, f x = f y := by
        intro x hx
        rcases List.mem_cons.mp hx with rfl | hx
        · rfl
        · rw [hval x hx, hr]
      obtain ⟨h1, h2, h3, h4⟩ := ih y (y :: cur) (List.cons_ne_nil y cur) hval'
      refine ⟨h1, h2, ?_, h4⟩
      intro C hC a ha
      rw [h3 C hC a ha, hr]
    · rw [if_neg (by simpa using hr)]
      obtain ⟨h1, h2, h3, h4⟩ := ih y [y] (List.cons_ne_nil y [])
        (by intro x hx; rw [List.mem_singleton] at hx; subst hx; rfl)
      refine ⟨?_, ?_, ?_, ?_⟩
      · intro C hC
        rcases List.mem_cons.mp hC with rfl | hC
        · simpa using hne
        · exact h1 C hC
      · intro C hC a ha b hb
        rcases List.mem_cons.mp hC with rfl | hC
        · rw [List.mem_reverse] at ha hb
          rw [hval a ha, hval b hb]
        · exact h2 C hC a ha b hb
      · intro C hC a ha
        rw [List.head?_cons, Option.mem_some_iff] at hC
        subst hC
        rw [List.mem_reverse] at ha
        exact hval a ha
      · rw [List.chain'_cons']
        refine ⟨?_, h4⟩
        intro C' hC' a ha b hb
        rw [List.mem_reverse] at ha
        rw [hval a ha]
        intro hcontra
        exact hr (hcontra.trans (h3 C' hC' b hb))

theorem chunkBy_spec (l : List α) :
    (∀ C ∈ chunkBy (fun a b => decide (f a = f b)) l, C ≠ []) ∧
    (∀ C ∈ chunkBy (fun a b => decide (f a = f b)) l, ∀ a ∈ C, ∀ b ∈ C, f a = f b) ∧
    List.Chain' (fun C C' => ∀ a ∈ C, ∀ b ∈ C', f a ≠ f b)
      (chunkBy (fun a b => decide (f a = f b)) l) := by
  cases l with
  | nil => exact ⟨by simp [chunkBy], by simp [chunkBy], by simp [chunkBy]⟩
  | cons x xs =>
    obtain ⟨h1, h2, -, h4⟩ := chunkByGo_spec f xs x [x] (List.cons_ne_nil x [])
      (by intro z hz; rw [List.mem_singleton] at hz; subst hz; rfl)
    exact ⟨h1, h2, h4⟩

theorem chunkByGo_block (t : List α) : ∀ (v : β) (prev : α) (cur rest : List α),
    f prev = v → (∀ y ∈ t, f y = v) →
    (∀ z ∈ rest.head?, f z ≠ v) →
    chunkByGo (fun a b => decide (f a = f b)) prev cur (t ++ rest) =
      (cur.reverse ++ t) :: chunkBy (fun a b => decide (f a = f b)) rest := by
  induction t with
  | nil =>
    intro v prev cur rest hprev hall hrest
    cases rest with
    | nil => simp [chunkByGo, chunkBy]
    | cons z zs =>
      rw [List.nil_append, chunkByGo, if_neg (by
        simp only [decide_eq_true_eq]
        intro hc
        exact hrest z (by simp) (hprev ▸ hc ▸ rfl))]
      rw [chunkBy]
      simp
  | cons y yb ih =>
    intro v prev cur rest hprev hall hrest
    rw [List.cons_append, chunkByGo, if_pos (by
      simp only [decide_eq_true_eq]
      rw [hprev, hall y (List.mem_cons_self y yb)])]
    rw [ih v y (y :: cur) rest (hall y (List.mem_cons_self y yb))
      (fun z hz => hall z (List.mem_cons_of_mem y hz)) hrest]
    simp

theorem chunkBy_blocks (Bs : List (List α))
    (hne : ∀ B ∈ Bs, B ≠ [])
    (hconst : ∀ B ∈ Bs, ∀ a ∈ B, ∀ b ∈ B, f a = f b)
    (hchain : List.Chain' (fun B B' => ∀ a ∈ B, ∀ b ∈ B', f a ≠ f b) Bs) :
    chunkBy (fun a b => decide (f a = f b)) Bs.flatten = Bs := by
  induction Bs with
  | nil => rfl
  | cons B Bs' ih =>
    rcases hB : B with _ | ⟨x, xb⟩
    · exact absurd hB (hne B (List.mem_cons_self B Bs'))
    subst hB
    rw [List.flatten_cons, List.cons_append, chunkBy]
    have hhead : ∀ z ∈ (Bs'.flatten).head?, f z ≠ f x := by
      intro z hz
      cases Bs' with
      | nil => simp at hz
      | cons B₂ Bs'' =>
        have hB₂ne := hne B₂ (List.mem_cons_of_mem _ (List.mem_cons_self B₂ Bs''))
        have hz' : z ∈ B₂ := by
          rcases hB₂ : B₂ with _ | ⟨w, ws⟩
          · exact absurd hB₂ hB₂ne
          · subst hB₂
            simp only [List.flatten_cons, List.cons_append, List.head?_cons,
              Option.mem_some_iff] at hz
            subst hz
            exact List.mem_cons_self w ws
        have := (List.chain'_cons'.mp hchain).1 B₂ (by
          rw [List.head?_cons]
          exact rfl) x (List.mem_cons_self x xb) z hz'
        exact fun hc => this hc.symm
    rw [chunkByGo_block f xb (f x) x [x] (Bs'.flatten) rfl
      (fun y hy => hconst (x :: xb) (List.mem_cons_self _ _) y (List.mem_cons_of_mem x hy)
        x (List.mem_cons_self x xb)) hhead]
    rw [ih (fun B hB => hne B (List.mem_cons_of_mem _ hB))
      (fun B hB => hconst B (List.mem_cons_of_mem _ hB)) (List.Chain'.tail hchain)]
    simp

end ChunkSpec

/-! ## Idempotence machinery: the chunk body -/

theorem secondaryKey_facts (a : Mana) :
    (isSingle a = true → secondaryKey a ≤ 1) ∧
    (isDuoNonPhyrexian a = true → secondaryKey a = 2) ∧
    (isDuoPhyrexian a = true → secondaryKey a = 3) ∧
    (isDuoNonPhyrexian a = true → isSingle a = false) ∧
    (isDuoPhyrexian a = true → isSingle a = false) ∧
    (isDuoPhyrexian a = true → isDuoNonPhyrexian a = false) ∧
    (isSingle a = true → isDuoNonPhyrexian a = false) ∧
    (isSingle a = true → isDuoPhyrexian a = false) ∧
    (isColored a = true → secondaryKey a ≤ 1 → isSingle a = true) ∧
    (isColored a = true → isSingle a = false → 2 ≤ secondaryKey a) ∧
    (isColored a = true → isSingle a = false → secondaryKey a ≤ 2 →
      isDuoNonPhyrexian a = true) := by
  cases a with
  | single s =>
    cases s <;>
      simp [isSingle, isDuoNonPhyrexian, isDuoPhyrexian, secondaryKey, isColored]
  | split s =>
    cases s with
    | duo x y p =>
      cases p <;>
        simp [isSingle, isDuoNonPhyrexian, isDuoPhyrexian, secondaryKey, isColored]
    | mono v c =>
      simp [isSingle, isDuoNonPhyrexian, isDuoPhyrexian, secondaryKey, isColored]
    | colorless c =>
      simp [isSingle, isDuoNonPhyrexian, isDuoPhyrexian, secondaryKey, isColored]
  | generic g =>
    simp [isSingle, isDuoNonPhyrexian, isDuoPhyrexian, secondaryKey, isColored]
  | colorless =>
    simp [isSingle, isDuoNonPhyrexian, isDuoPhyrexian, secondaryKey, isColored]
  | snow =>
    simp [isSingle, isDuoNonPhyrexian, isDuoPhyrexian, secondaryKey, isColored]

/-- On an all-colored run, discarding singles and then non-phyrexian duos
leaves exactly the phyrexian duos. -/
theorem duoPhy_chain (c : List Mana) (hcol : ∀ x ∈ c, isColored x = true) :
    (c.filter (fun x => !isSingle x)).filter (fun x => !isDuoNonPhyrexian x) =
      c.filter isDuoPhyrexian := by
  induction c with
  | nil => rfl
  | cons x xs ih =>
    have hx := hcol x (List.mem_cons_self x xs)
    have ihx := ih fun z hz => hcol z (List.mem_cons_of_mem _ hz)
    cases x with
    | single s =>
      simp [-List.filter_filter, List.filter_cons,
        show isSingle (Mana.single s) = true from rfl,
        show isDuoPhyrexian (Mana.single s) = false from rfl, ihx]
    | split s =>
      cases s with
      | duo a b p =>
        cases p
        · simp [-List.filter_filter, List.filter_cons,
            show isSingle (Mana.split (.duo a b false)) = false from rfl,
            show isDuoNonPhyrexian (Mana.split (.duo a b false)) = true from rfl,
            show isDuoPhyrexian (Mana.split (.duo a b false)) = false from rfl, ihx]
        · simp [-List.filter_filter, List.filter_cons,
            show isSingle (Mana.split (.duo a b true)) = false from rfl,
            show isDuoNonPhyrexian (Mana.split (.duo a b true)) = false from rfl,
            show isDuoPhyrexian (Mana.split (.duo a b true)) = true from rfl, ihx]
      | mono v c => simp [isColored] at hx
      | colorless c => simp [isColored] at hx
    | generic g => simp [isColored] at hx
    | colorless => simp [isColored] at hx
    | snow => simp [isColored] at hx

theorem processChunk_eq_canonicalChunk (c : List Mana)
    (hcol : ∀ x ∈ c, isColored x = true) : processChunk c = canonicalChunk c := by
  have hs1 : (stableSortByKey secondaryKey c).Pairwise
      (fun a b => secondaryKey a ≤ secondaryKey b) := stableSortByKey_pairwise _ c
  have hmem : ∀ x ∈ stableSortByKey secondaryKey c, isColored x = true := fun x hx =>
    hcol x ((stableSortByKey_perm _ c).mem_iff.mp hx)
  set c1 := stableSortByKey secondaryKey c with hc1
  have hS := sorted_takeWhile_filter secondaryKey isSingle c1 hs1 (by
    intro a ha b hb hab hb'
    exact (secondaryKey_facts a).2.2.2.2.2.2.2.2.1 (hmem a ha)
      (le_trans hab ((secondaryKey_facts b).1 hb')))
  have hN := sorted_takeWhile_filter secondaryKey isDuoNonPhyrexian
    (c1.filter (fun x => !isSingle x)) (hs1.filter _) (by
      intro a ha b hb hab hb'
      have hamem := List.mem_filter.mp ha
      have hacol := hmem a hamem.1
      have hans : isSingle a = false := by simpa using hamem.2
      refine (secondaryKey_facts a).2.2.2.2.2.2.2.2.2.2 hacol hans ?_
      rw [(secondaryKey_facts b).2.1 hb'] at hab
      exact hab)
  rw [processChunk, canonicalChunk]
  simp only [← hc1]
  rw [hS.1, hS.2, hN.1, hN.2]
  rw [filter_filter_subsume (fun a h => by
    simpa using (secondaryKey_facts a).2.2.2.1 h)]
  rw [duoPhy_chain c1 hmem]
  rw [hc1, filter_stableSortByKey, filter_stableSortByKey, filter_stableSortByKey]
  rw [stableSortByKey_eq_self secondaryKey (c.filter isDuoNonPhyrexian)
    (pairwise_of_const_key secondaryKey (k := 2) (fun a ha =>
      (secondaryKey_facts a).2.1 (List.mem_filter.mp ha).2))]
  rw [stableSortByKey_eq_self secondaryKey (c.filter isDuoPhyrexian)
    (pairwise_of_const_key secondaryKey (k := 3) (fun a ha =>
      (secondaryKey_facts a).2.2.1 (List.mem_filter.mp ha).2))]

theorem canonicalChunk_subset {c : List Mana} {x : Mana} (hx : x ∈ canonicalChunk c) :
    x ∈ c := by
  rw [canonicalChunk] at hx
  rcases List.mem_append.mp hx with hx | hx
  · rcases List.mem_append.mp hx with hx | hx
    · exact List.mem_of_mem_filter ((stableSortByKey_perm _ _).mem_iff.mp hx)
    · exact List.mem_of_mem_filter ((sortByColors_perm _ _).mem_iff.mp hx)
  · exact List.mem_of_mem_filter ((sortByColors_perm _ _).mem_iff.mp hx)

theorem canonicalChunk_idem (c : List Mana) :
    canonicalChunk (canonicalChunk c) = canonicalChunk c := by
  have hN_nosingle : (sortByColors rightColorD
      (c.filter isDuoNonPhyrexian)).filter isSingle = [] :=
    List.filter_eq_nil_iff.mpr fun a ha => by
      simp [(secondaryKey_facts a).2.2.2.1
        (List.mem_filter.mp ((sortByColors_perm _ _).mem_iff.mp ha)).2]
  have hP_nosingle : (sortByColors rightColorD
      (c.filter isDuoPhyrexian)).filter isSingle = [] :=
    List.filter_eq_nil_iff.mpr fun a ha => by
      simp [(secondaryKey_facts a).2.2.2.2.1
        (List.mem_filter.mp ((sortByColors_perm _ _).mem_iff.mp ha)).2]
  have hS_nononphy : (c.filter isSingle).filter isDuoNonPhyrexian = [] :=
    List.filter_eq_nil_iff.mpr fun a ha => by
      simp [(secondaryKey_facts a).2.2.2.2.2.2.1 (List.mem_filter.mp ha).2]
  have hS_nophy : (c.filter isSingle).filter isDuoPhyrexian = [] :=
    List.filter_eq_nil_iff.mpr fun a ha => by
      simp [(secondaryKey_facts a).2.2.2.2.2.2.2.1 (List.mem_filter.mp ha).2]
  have hN_self : (sortByColors rightColorD
      (c.filter isDuoNonPhyrexian)).filter isDuoNonPhyrexian =
      sortByColors rightColorD (c.filter isDuoNonPhyrexian) :=
    List.filter_eq_self.mpr fun a ha =>
      (List.mem_filter.mp ((sortByColors_perm _ _).mem_iff.mp ha)).2
  have hP_self : (sortByColors rightColorD
      (c.filter isDuoPhyrexian)).filter isDuoPhyrexian =
      sortByColors rightColorD (c.filter isDuoPhyrexian) :=
    List.filter_eq_self.mpr fun a ha =>
      (List.mem_filter.mp ((sortByColors_perm _ _).mem_iff.mp ha)).2
  have hP_nononphy : (sortByColors rightColorD
      (c.filter isDuoPhyrexian)).filter isDuoNonPhyrexian = [] :=
    List.filter_eq_nil_iff.mpr fun a ha => by
      simp [(secondaryKey_facts a).2.2.2.2.2.1
        (List.mem_filter.mp ((sortByColors_perm _ _).mem_iff.mp ha)).2]
  have hN_nophy : (sortByColors rightColorD
      (c.filter isDuoNonPhyrexian)).filter isDuoPhyrexian = [] :=
    List.filter_eq_nil_iff.mpr fun a ha => by
      have hnp := (List.mem_filter.mp ((sortByColors_perm _ _).mem_iff.mp ha)).2
      cases hq : isDuoPhyrexian a
      · simp
      · rw [(secondaryKey_facts a).2.2.2.2.2.1 hq] at hnp
        exact Bool.noConfusion hnp
  have hfS : (canonicalChunk c).filter isSingle =
      stableSortByKey secondaryKey (c.filter isSingle) := by
    rw [canonicalChunk, List.filter_append, List.filter_append]
    rw [filter_stableSortByKey, filter_filter_subsume (fun a h => h)]
    rw [hN_nosingle, hP_nosingle]
    simp
  have hfN : (canonicalChunk c).filter isDuoNonPhyrexian =
      sortByColors rightColorD (c.filter isDuoNonPhyrexian) := by
    rw [canonicalChunk, List.filter_append, List.filter_append]
    rw [filter_stableSortByKey, hS_nononphy, hN_self, hP_nononphy]
    rw [show stableSortByKey secondaryKey ([] : List Mana) = [] from rfl]
    simp
  have hfP : (canonicalChunk c).filter isDuoPhyrexian =
      sortByColors rightColorD (c.filter isDuoPhyrexian) := by
    rw [canonicalChunk, List.filter_append, List.filter_append]
    rw [filter_stableSortByKey, hS_nophy, hN_nophy, hP_self]
    rw [show stableSortByKey secondaryKey ([] : List Mana) = [] from rfl]
    simp
  conv_lhs => rw [canonicalChunk]
  rw [hfS, hfN, hfP, stableSortByKey_idem, sortByColors_idem, sortByColors_idem]
  rw [canonicalChunk]

/-! ## Idempotence of the colored-run processing -/

theorem processColored_idem (d : List Mana) (hcol : ∀ x ∈ d, isColored x = true) :
    processColored (processColored d) = processColored d := by
  obtain ⟨hne, hconst, hchain⟩ :=
    chunkBy_spec Mana.left_half_color (sortByColors leftColorD d)
  set d1 := sortByColors leftColorD d with hd1
  set Cs := chunkBy (fun a b => decide (a.left_half_color = b.left_half_color)) d1 with hCs
  have hd1mem : ∀ x ∈ d1, isColored x = true := fun x hx =>
    hcol x ((sortByColors_perm _ _).mem_iff.mp hx)
  have hflat : Cs.flatten = d1 := chunkBy_flatten _ d1
  have hchunkmem : ∀ C ∈ Cs, ∀ x ∈ C, x ∈ d1 := by
    intro C hC x hx
    rw [← hflat]
    exact List.mem_flatten.mpr ⟨C, hC, hx⟩
  have hd1sorted : d1.Pairwise (fun a b =>
      orderOf (runMask leftColorD d) (leftColorD a) ≤
        orderOf (runMask leftColorD d) (leftColorD b)) :=
    sortByColors_pairwise leftColorD d
  have hkeyconst : ∀ C ∈ Cs, ∀ a ∈ C, ∀ b ∈ C,
      orderOf (runMask leftColorD d) (leftColorD a) =
        orderOf (runMask leftColorD d) (leftColorD b) := by
    intro C hC a ha b hb
    have := hconst C hC a ha b hb
    rw [leftColorD, leftColorD, this]
  have hD'flatten_eq : processColored d = (Cs.map processChunk).flatten := by
    rw [processColored, ← hd1, ← hCs]
  have hcross : List.Pairwise (fun C C' => ∀ a ∈ C, ∀ b ∈ C',
      orderOf (runMask leftColorD d) (leftColorD a) ≤
        orderOf (runMask leftColorD d) (leftColorD b)) Cs := by
    have hp : ((Cs).flatten).Pairwise (fun a b =>
        orderOf (runMask leftColorD d) (leftColorD a) ≤
          orderOf (runMask leftColorD d) (leftColorD b)) := by
      rw [hflat]
      exact hd1sorted
    exact (List.pairwise_join.mp hp).2
  have hD'sorted : ((Cs.map processChunk).flatten).Pairwise (fun a b =>
      orderOf (runMask leftColorD d) (leftColorD a) ≤
        orderOf (runMask leftColorD d) (leftColorD b)) := by
    rw [List.pairwise_join]
    constructor
    · intro C' hC'
      obtain ⟨C, hC, rfl⟩ := List.mem_map.mp hC'
      refine List.pairwise_of_forall_mem_list ?_
      intro a ha b hb
      rw [hkeyconst C hC a ((processChunk_perm C).mem_iff.mp ha)
        b ((processChunk_perm C).mem_iff.mp hb)]
    · rw [List.pairwise_map]
      refine hcross.imp ?_
      intro C C' h a ha b hb
      exact h a ((processChunk_perm C).mem_iff.mp ha) b ((processChunk_perm C').mem_iff.mp hb)
  have hmask : runMask leftColorD (processColored d) = runMask leftColorD d :=
    runMask_perm leftColorD (processColored_perm d)
  have hsortid : sortByColors leftColorD (processColored d) = processColored d := by
    rw [sortByColors, hmask]
    refine stableSortByKey_eq_self _ _ ?_
    rw [hD'flatten_eq]
    exact hD'sorted
  have hchunks' : chunkBy (fun a b => decide (a.left_half_color = b.left_half_color))
      ((Cs.map processChunk).flatten) = Cs.map processChunk := by
    refine chunkBy_blocks Mana.left_half_color (Cs.map processChunk) ?_ ?_ ?_
    · intro C' hC'
      obtain ⟨C, hC, rfl⟩ := List.mem_map.mp hC'
      intro hnil
      have hlen := (processChunk_perm C).length_eq
      rw [hnil] at hlen
      exact hne C hC (List.length_eq_zero.mp hlen.symm)
    · intro C' hC' a ha b hb
      obtain ⟨C, hC, rfl⟩ := List.mem_map.mp hC'
      exact hconst C hC a ((processChunk_perm C).mem_iff.mp ha)
        b ((processChunk_perm C).mem_iff.mp hb)
    · rw [List.chain'_map]
      refine hchain.imp ?_
      intro C C' h a ha b hb
      exact h a ((processChunk_perm C).mem_iff.mp ha) b ((processChunk_perm C').mem_iff.mp hb)
  have hmapid : (Cs.map processChunk).map processChunk = Cs.map processChunk := by
    rw [List.map_map]
    refine List.map_congr_left ?_
    intro C hC
    have hCcol : ∀ x ∈ C, isColored x = true := fun x hx => hd1mem x (hchunkmem C hC x hx)
    show processChunk (processChunk C) = processChunk C
    rw [processChunk_eq_canonicalChunk C hCcol,
      processChunk_eq_canonicalChunk (canonicalChunk C)
        (fun x hx => hCcol x (canonicalChunk_subset hx)),
      canonicalChunk_idem]
  conv_lhs => rw [processColored]
  rw [hsortid, hD'flatten_eq, hchunks', hmapid]

/-! ## Idempotence of the whole sort (claim C5) -/

theorem bucket_pointwise (a : Mana) :
    (isGeneric a = true → isMono a = false ∧ isColorlessMana a = false ∧
      isColorlessHybrid a = false ∧ isColored a = false ∧ isSnow a = false) ∧
    (isMono a = true → isGeneric a = false ∧ isColorlessMana a = false ∧
      isColorlessHybrid a = false ∧ isColored a = false ∧ isSnow a = false) ∧
    (isColorlessMana a = true → isGeneric a = false ∧ isMono a = false ∧
      isColorlessHybrid a = false ∧ isColored a = false ∧ isSnow a = false) ∧
    (isColorlessHybrid a = true → isGeneric a = false ∧ isMono a = false ∧
      isColorlessMana a = false ∧ isColored a = false ∧ isSnow a = false) ∧
    (isColored a = true → isGeneric a = false ∧ isMono a = false ∧
      isColorlessMana a = false ∧ isColorlessHybrid a = false ∧ isSnow a = false) ∧
    (isSnow a = true → isGeneric a = false ∧ isMono a = false ∧
      isColorlessMana a = false ∧ isColorlessHybrid a = false ∧ isColored a = false) := by
  cases a with
  | generic g =>
    simp [isGeneric, isMono, isColorlessMana, isColorlessHybrid, isColored, isSnow]
  | split s =>
    cases s <;>
      simp [isGeneric, isMono, isColorlessMana, isColorlessHybrid, isColored, isSnow]
  | single s =>
    simp [isGeneric, isMono, isColorlessMana, isColorlessHybrid, isColored, isSnow]
  | colorless =>
    simp [isGeneric, isMono, isColorlessMana, isColorlessHybrid, isColored, isSnow]
  | snow =>
    simp [isGeneric, isMono, isColorlessMana, isColorlessHybrid, isColored, isSnow]

theorem canonicalForm_idem (l : List Mana) :
    canonicalForm (canonicalForm l) = canonicalForm l := by
  have memG : ∀ x ∈ stableSortByKey primaryKey (l.filter isGeneric), isGeneric x = true :=
    fun x hx => (List.mem_filter.mp ((stableSortByKey_perm _ _).mem_iff.mp hx)).2
  have memM : ∀ x ∈ sortByColors rightColorD (l.filter isMono), isMono x = true :=
    fun x hx => (List.mem_filter.mp ((sortByColors_perm _ _).mem_iff.mp hx)).2
  have memC : ∀ x ∈ l.filter isColorlessMana, isColorlessMana x = true :=
    fun x hx => (List.mem_filter.mp hx).2
  have memH : ∀ x ∈ sortByColors rightColorD (l.filter isColorlessHybrid),
      isColorlessHybrid x = true :=
    fun x hx => (List.mem_filter.mp ((sortByColors_perm _ _).mem_iff.mp hx)).2
  have memD : ∀ x ∈ processColored (l.filter isColored), isColored x = true :=
    fun x hx => (List.mem_filter.mp ((processColored_perm _).mem_iff.mp hx)).2
  have memS : ∀ x ∈ l.filter isSnow, isSnow x = true :=
    fun x hx => (List.mem_filter.mp hx).2
  have nMG : (stableSortByKey primaryKey (l.filter isGeneric)).filter isMono = [] :=
    List.filter_eq_nil_iff.mpr fun a ha => by
      simp [((bucket_pointwise a).1 (memG a ha)).1]
  have nCG : (stableSortByKey primaryKey (l.filter isGeneric)).filter isColorlessMana = [] :=
    List.filter_eq_nil_iff.mpr fun a ha => by
      simp [((bucket_pointwise a).1 (memG a ha)).2.1]
  have nHG : (stableSortByKey primaryKey (l.filter isGeneric)).filter isColorlessHybrid = [] :=
    List.filter_eq_nil_iff.mpr fun a ha => by
      simp [((bucket_pointwise a).1 (memG a ha)).2.2.1]
  have nDG : (stableSortByKey primaryKey (l.filter isGeneric)).filter isColored = [] :=
    List.filter_eq_nil_iff.mpr fun a ha => by
      simp [((bucket_pointwise a).1 (memG a ha)).2.2.2.1]
  have nSG : (stableSortByKey primaryKey (l.filter isGeneric)).filter isSnow = [] :=
    List.filter_eq_nil_iff.mpr fun a ha => by
      simp [((bucket_pointwise a).1 (memG a ha)).2.2.2.2]
  have nGM : (sortByColors rightColorD (l.filter isMono)).filter isGeneric = [] :=
    List.filter_eq_nil_iff.mpr fun a ha => by
      simp [((bucket_pointwise a).2.1 (memM a ha)).1]
  have nCM : (sortByColors rightColorD (l.filter isMono)).filter isColorlessMana = [] :=
    List.filter_eq_nil_iff.mpr fun a ha => by
      simp [((bucket_pointwise a).2.1 (memM a ha)).2.1]
  have nHM : (sortByColors rightColorD (l.filter isMono)).filter isColorlessHybrid = [] :=
    List.filter_eq_nil_iff.mpr fun a ha => by
      simp [((bucket_pointwise a).2.1 (memM a ha)).2.2.1]
  have nDM : (sortByColors rightColorD (l.filter isMono)).filter isColored = [] :=
    List.filter_eq_nil_iff.mpr fun a ha => by
      simp [((bucket_pointwise a).2.1 (memM a ha)).2.2.2.1]
  have nSM : (sortByColors rightColorD (l.filter isMono)).filter isSnow = [] :=
    List.filter_eq_nil_iff.mpr fun a ha => by
      simp [((bucket_pointwise a).2.1 (memM a ha)).2.2.2.2]
  have nGC : (l.filter isColorlessMana).filter isGeneric = [] :=
    List.filter_eq_nil_iff.mpr fun a ha => by
      simp [((bucket_pointwise a).2.2.1 (memC a ha)).1]
  have nMC : (l.filter isColorlessMana).filter isMono = [] :=
    List.filter_eq_nil_iff.mpr fun a ha => by
      simp [((bucket_pointwise a).2.2.1 (memC a ha)).2.1]
  have nHC : (l.filter isColorlessMana).filter isColorlessHybrid = [] :=
    List.filter_eq_nil_iff.mpr fun a ha => by
      simp [((bucket_pointwise a).2.2.1 (memC a ha)).2.2.1]
  have nDC : (l.filter isColorlessMana).filter isColored = [] :=
    List.filter_eq_nil_iff.mpr fun a ha => by
      simp [((bucket_pointwise a).2.2.1 (memC a ha)).2.2.2.1]
  have nSC : (l.filter isColorlessMana).filter isSnow = [] :=
    List.filter_eq_nil_iff.mpr fun a ha => by
      simp [((bucket_pointwise a).2.2.1 (memC a ha)).2.2.2.2]
  have nGH : (sortByColors rightColorD (l.filter isColorlessHybrid)).filter isGeneric = [] :=
    List.filter_eq_nil_iff.mpr fun a ha => by
      simp [((bucket_pointwise a).2.2.2.1 (memH a ha)).1]
  have nMH : (sortByColors rightColorD (l.filter isColorlessHybrid)).filter isMono = [] :=
    List.filter_eq_nil_iff.mpr fun a ha => by
      simp [((bucket_pointwise a).2.2.2.1 (memH a ha)).2.1]
  have nCH : (sortByColors rightColorD (l.filter isColorlessHybrid)).filter isColorlessMana = [] :=
    List.filter_eq_nil_iff.mpr fun a ha => by
      simp [((bucket_pointwise a).2.2.2.1 (memH a ha)).2.2.1]
  have nDH : (sortByColors rightColorD (l.filter isColorlessHybrid)).filter isColored = [] :=
    List.filter_eq_nil_iff.mpr fun a ha => by
      simp [((bucket_pointwise a).2.2.2.1 (memH a ha)).2.2.2.1]
  have nSH : (sortByColors rightColorD (l.filter isColorlessHybrid)).filter isSnow = [] :=
    List.filter_eq_nil_iff.mpr fun a ha => by
      simp [((bucket_pointwise a).2.2.2.1 (memH a ha)).2.2.2.2]
  have nGD : (processColored (l.filter isColored)).filter isGeneric = [] :=
    List.filter_eq_nil_iff.mpr fun a ha => by
      simp [((bucket_pointwise a).2.2.2.2.1 (memD a ha)).1]
  have nMD : (processColored (l.filter isColored)).filter isMono = [] :=
    List.filter_eq_nil_iff.mpr fun a ha => by
      simp [((bucket_pointwise a).2.2.2.2.1 (memD a ha)).2.1]
  have nCD : (processColored (l.filter isColored)).filter isColorlessMana = [] :=
    List.filter_eq_nil_iff.mpr fun a ha => by
      simp [((bucket_pointwise a).2.2.2.2.1 (memD a ha)).2.2.1]
  have nHD : (processColored (l.filter isColored)).filter isColorlessHybrid = [] :=
    List.filter_eq_nil_iff.mpr fun a ha => by
      simp [((bucket_pointwise a).2.2.2.2.1 (memD a ha)).2.2.2.1]
  have nSD : (processColored (l.filter isColored)).filter isSnow = [] :=
    List.filter_eq_nil_iff.mpr fun a ha => by
      simp [((bucket_pointwise a).2.2.2.2.1 (memD a ha)).2.2.2.2]
  have nGS : (l.filter isSnow).filter isGeneric = [] :=
    List.filter_eq_nil_iff.mpr fun a ha => by
      simp [((bucket_pointwise a).2.2.2.2.2 (memS a ha)).1]
  have nMS : (l.filter isSnow).filter isMono = [] :=
    List.filter_eq_nil_iff.mpr fun a ha => by
      simp [((bucket_pointwise a).2.2.2.2.2 (memS a ha)).2.1]
  have nCS : (l.filter isSnow).filter isColorlessMana = [] :=
    List.filter_eq_nil_iff.mpr fun a ha => by
      simp [((bucket_pointwise a).2.2.2.2.2 (memS a ha)).2.2.1]
  have nHS : (l.filter isSnow).filter isColorlessHybrid = [] :=
    List.filter_eq_nil_iff.mpr fun a ha => by
      simp [((bucket_pointwise a).2.2.2.2.2 (memS a ha)).2.2.2.1]
  have nDS : (l.filter isSnow).filter isColored = [] :=
    List.filter_eq_nil_iff.mpr fun a ha => by
      simp [((bucket_pointwise a).2.2.2.2.2 (memS a ha)).2.2.2.2]
  have sG : (stableSortByKey primaryKey (l.filter isGeneric)).filter isGeneric =
      stableSortByKey primaryKey (l.filter isGeneric) := by
    rw [filter_stableSortByKey, filter_filter_subsume (fun a h => h)]
  have sM : (sortByColors rightColorD (l.filter isMono)).filter isMono =
      sortByColors rightColorD (l.filter isMono) :=
    List.filter_eq_self.mpr memM
  have sC : (l.filter isColorlessMana).filter isColorlessMana = l.filter isColorlessMana :=
    List.filter_eq_self.mpr memC
  have sH : (sortByColors rightColorD (l.filter isColorlessHybrid)).filter
      isColorlessHybrid = sortByColors rightColorD (l.filter isColorlessHybrid) :=
    List.filter_eq_self.mpr memH
  have sD : (processColored (l.filter isColored)).filter isColored =
      processColored (l.filter isColored) :=
    List.filter_eq_self.mpr memD
  have sS : (l.filter isSnow).filter isSnow = l.filter isSnow :=
    List.filter_eq_self.mpr memS
  have fG : (canonicalForm l).filter isGeneric = stableSortByKey primaryKey (l.filter isGeneric) := by
    rw [canonicalForm, List.filter_append, List.filter_append, List.filter_append,
      List.filter_append, List.filter_append]
    rw [sG, nGM, nGC, nGH, nGD, nGS]
    simp
  have fM : (canonicalForm l).filter isMono = sortByColors rightColorD (l.filter isMono) := by
    rw [canonicalForm, List.filter_append, List.filter_append, List.filter_append,
      List.filter_append, List.filter_append]
    rw [nMG, sM, nMC, nMH, nMD, nMS]
    simp
  have fC : (canonicalForm l).filter isColorlessMana = l.filter isColorlessMana := by
    rw [canonicalForm, List.filter_append, List.filter_append, List.filter_append,
      List.filter_append, List.filter_append]
    rw [nCG, nCM, sC, nCH, nCD, nCS]
    simp
  have fH : (canonicalForm l).filter isColorlessHybrid = sortByColors rightColorD (l.filter isColorlessHybrid) := by
    rw [canonicalForm, List.filter_append, List.filter_append, List.filter_append,
      List.filter_append, List.filter_append]
    rw [nHG, nHM, nHC, sH, nHD, nHS]
    simp
  have fD : (canonicalForm l).filter isColored = processColored (l.filter isColored) := by
    rw [canonicalForm, List.filter_append, List.filter_append, List.filter_append,
      List.filter_append, List.filter_append]
    rw [nDG, nDM, nDC, nDH, sD, nDS]
    simp
  have fS : (canonicalForm l).filter isSnow = l.filter isSnow := by
    rw [canonicalForm, List.filter_append, List.filter_append, List.filter_append,
      List.filter_append, List.filter_append]
    rw [nSG, nSM, nSC, nSH, nSD, sS]
    simp
  conv_lhs => rw [canonicalForm]
  rw [fG, fM, fC, fH, fD, fS]
  rw [stableSortByKey_idem, sortByColors_idem, sortByColors_idem,
    processColored_idem _ (fun x hx => (List.mem_filter.mp hx).2)]
  rw [canonicalForm]

/-- Pointwise idempotence of hybrid normalization (the 50 duos are
exhausted by `decide`). -/
theorem normalize_hybrid_idem_pointwise (m : Mana) :
    m.normalize_hybrid.normalize_hybrid = m.normalize_hybrid := by
  cases m with
  | split s =>
    cases s with
    | duo a b p => cases a <;> cases b <;> cases p <;> decide
    | mono v c => rfl
    | colorless c => rfl
  | single s => rfl
  | generic g => rfl
  | colorless => rfl
  | snow => rfl

/-- **C5.** Both `Manas::sort` and `Manas::normalize_hybrid` are
idempotent: applying either to its own output leaves the list unchanged. -/
theorem claim_C5_idempotence (l : List Mana) :
    Manas.sort (Manas.sort l) = Manas.sort l ∧
    Manas.normalize_hybrid (Manas.normalize_hybrid l) = Manas.normalize_hybrid l := by
  constructor
  · rw [sort_eq_canonicalForm, sort_eq_canonicalForm, canonicalForm_idem]
  · rw [Manas.normalize_hybrid, Manas.normalize_hybrid, List.map_map]
    exact List.map_congr_left fun m _ => normalize_hybrid_idem_pointwise m

/-! ## Decimal digits and their parsing -/

theorem natToDigitsFuel_congr {n f1 f2 : Nat} (h1 : n < f1) (h2 : n < f2) :
    natToDigitsFuel f1 n = natToDigitsFuel f2 n := by
  induction f1 generalizing n f2 with
  | zero => omega
  | succ f1 ih =>
    cases f2 with
    | zero => omega
    | succ f2 =>
      rw [natToDigitsFuel, natToDigitsFuel]
      by_cases h : n < 10
      · rw [if_pos h, if_pos h]
      · have hd := Nat.div_lt_self (show 0 < n by omega) (show 1 < 10 by omega)
        rw [if_neg h, if_neg h,
          ih (show n / 10 < f1 by omega) (show n / 10 < f2 by omega)]

/-- The recursion equation of decimal rendering, fuel eliminated. -/
theorem natToDigits_eq (n : Nat) :
    natToDigits n = if n < 10 then [Char.ofNat (48 + n)]
      else natToDigits (n / 10) ++ [Char.ofNat (48 + n % 10)] := by
  rw [natToDigits, natToDigitsFuel]
  by_cases h : n < 10
  · rw [if_pos h, if_pos h]
  · have hd := Nat.div_lt_self (show 0 < n by omega) (show 1 < 10 by omega)
    rw [if_neg h, if_neg h, natToDigits,
      natToDigitsFuel_congr (show n / 10 < n by omega) (Nat.lt_succ_self _)]

theorem digitChar_isDigit {d : Nat} (h : d < 10) :
    isDigitChar (Char.ofNat (48 + d)) = true := by
  interval_cases d <;> decide

theorem digitChar_toNat {d : Nat} (h : d < 10) : (Char.ofNat (48 + d)).toNat = 48 + d := by
  interval_cases d <;> decide

theorem natToDigits_digits (n : Nat) : ∀ c ∈ natToDigits n, isDigitChar c = true := by
  induction n using Nat.strong_induction_on with
  | _ n ih =>
    rw [natToDigits_eq]
    by_cases h : n < 10
    · rw [if_pos h]
      intro c hc
      rw [List.mem_singleton] at hc
      subst hc
      exact digitChar_isDigit h
    · rw [if_neg h]
      intro c hc
      rcases List.mem_append.mp hc with hc | hc
      · exact ih (n / 10) (Nat.div_lt_self (by omega) (by omega)) c hc
      · rw [List.mem_singleton] at hc
        subst hc
        exact digitChar_isDigit (Nat.mod_lt _ (by omega))

theorem natToDigits_ne_nil (n : Nat) : natToDigits n ≠ [] := by
  rw [natToDigits_eq]
  by_cases h : n < 10
  · rw [if_pos h]
    exact List.cons_ne_nil _ _
  · rw [if_neg h]
    simp

theorem digitsVal_append (A : List Char) (c : Char) :
    digitsVal (A ++ [c]) = digitsVal A * 10 + (c.toNat - 48) := by
  rw [digitsVal, digitsVal, List.foldl_append]
  rfl

theorem digitsVal_natToDigits (n : Nat) : digitsVal (natToDigits n) = n := by
  induction n using Nat.strong_induction_on with
  | _ n ih =>
    rw [natToDigits_eq]
    by_cases h : n < 10
    · rw [if_pos h]
      show 0 * 10 + ((Char.ofNat (48 + n)).toNat - 48) = n
      rw [digitChar_toNat h]
      omega
    · rw [if_neg h, digitsVal_append,
        ih (n / 10) (Nat.div_lt_self (by omega) (by omega)),
        digitChar_toNat (Nat.mod_lt _ (by omega))]
      omega

theorem takeWhile_digits_append {ds r : List Char}
    (hds : ∀ c ∈ ds, isDigitChar c = true)
    (hr : ∀ c ∈ r.head?, isDigitChar c = false) :
    (ds ++ r).takeWhile isDigitChar = ds ∧ (ds ++ r).dropWhile isDigitChar = r := by
  induction ds with
  | nil =>
    cases r with
    | nil => exact ⟨rfl, rfl⟩
    | cons c r' =>
      have hc := hr c rfl
      constructor
      · rw [List.nil_append, List.takeWhile_cons_of_neg (by simp [hc])]
      · rw [List.nil_append, List.dropWhile_cons_of_neg (by simp [hc])]
  | cons d ds ih =>
    have hd := hds d (List.mem_cons_self d ds)
    obtain ⟨iht, ihd⟩ := ih (fun c hc => hds c (List.mem_cons_of_mem d hc))
    constructor
    · rw [List.cons_append, List.takeWhile_cons_of_pos (by simp [hd]), iht]
    · rw [List.cons_append, List.dropWhile_cons_of_pos (by simp [hd]), ihd]

theorem parseNumber_eq {ds r : List Char} (hne : ds ≠ [])
    (hds : ∀ c ∈ ds, isDigitChar c = true)
    (hbound : digitsVal ds ≤ USIZE_MAX)
    (hr : ∀ c ∈ r.head?, isDigitChar c = false) :
    parseNumber (ds ++ r) = some (digitsVal ds, r) := by
  obtain ⟨ht, hd⟩ := takeWhile_digits_append hds hr
  unfold parseNumber
  rw [ht, hd, if_neg (by simp [List.isEmpty_iff, hne]), if_pos hbound]

/-! ## Behaviour of the leaf parsers on grammar texts -/

theorem isDigitChar_ne {c : Char} (h : isDigitChar c = true) (x : Char)
    (hx : isDigitChar x = false) : c ≠ x := fun he => by
  subst he
  rw [h] at hx
  exact Bool.noConfusion hx

theorem render_facts (c : Color) : isDigitChar c.render = false ∧ c.render ≠ '/' ∧
    c.render ≠ 'C' ∧ c.render ≠ 'S' ∧ c.render ≠ 'X' ∧ c.render ≠ 'Y' ∧ c.render ≠ 'Z' ∧
    c.render ≠ 'P' ∧ c.render ≠ Char.ofNat 125 ∧ c.render ≠ Char.ofNat 123 := by
  cases c <;> decide

theorem Color.parse_render (c : Color) (r : List Char) :
    Color.parse (c.render :: r) = some (c, r) := by
  cases c <;> rfl

theorem colorParse_none {x : Char} (r : List Char) (hW : x ≠ 'W') (hU : x ≠ 'U')
    (hB : x ≠ 'B') (hR : x ≠ 'R') (hG : x ≠ 'G') : Color.parse (x :: r) = none := by
  unfold Color.parse
  split <;> simp_all

theorem Color.parse_digit {x : Char} (r : List Char) (h : isDigitChar x = true) :
    Color.parse (x :: r) = none :=
  colorParse_none r (isDigitChar_ne h 'W' (by decide)) (isDigitChar_ne h 'U' (by decide))
    (isDigitChar_ne h 'B' (by decide)) (isDigitChar_ne h 'R' (by decide))
    (isDigitChar_ne h 'G' (by decide))

theorem parseNumber_none_head {x : Char} (cs : List Char) (h : isDigitChar x = false) :
    parseNumber (x :: cs) = none := by
  unfold parseNumber
  rw [List.takeWhile_cons_of_neg (by simp [h])]
  rfl

theorem parseSplitColorless_neC {x : Char} (cs : List Char) (h : x ≠ 'C') :
    parseSplitColorless (x :: cs) = none := by
  unfold parseSplitColorless
  split <;> simp_all

theorem parseSplitColorless_C_stop {r : List Char} (hr : ∀ z ∈ r.head?, z ≠ '/') :
    parseSplitColorless ('C' :: r) = none := by
  cases r with
  | nil => rfl
  | cons z zs =>
    have := hr z rfl
    unfold parseSplitColorless
    split <;> simp_all

theorem parseSplitColorless_ok (c : Color) (r : List Char) :
    parseSplitColorless ('C' :: '/' :: c.render :: r) = some (.colorless c, r) := by
  unfold parseSplitColorless
  simp [Color.parse_render]

theorem parseSplitDuoP_no_color {cs : List Char} (h : Color.parse cs = none) :
    parseSplitDuoP cs = none := by
  unfold parseSplitDuoP
  rw [h]

theorem parseSplitDuoP_stop1 {cs : List Char} {c : Color} {r : List Char}
    (h : Color.parse cs = some (c, r)) (hr : ∀ z ∈ r.head?, z ≠ '/') :
    parseSplitDuoP cs = none := by
  unfold parseSplitDuoP
  rw [h]
  cases r with
  | nil => rfl
  | cons z zs =>
    have := hr z rfl
    split <;> simp_all

theorem parseSplitDuoP_stop2 {cs : List Char} {c : Color} {r2 : List Char}
    (h : Color.parse cs = some (c, '/' :: r2)) (h2 : Color.parse r2 = none) :
    parseSplitDuoP cs = none := by
  unfold parseSplitDuoP
  rw [h]
  simp [h2]

theorem parseSplitDuoP_stopP {cs : List Char} {a b : Color} {r2 r3 : List Char}
    (h : Color.parse cs = some (a, '/' :: r2)) (h2 : Color.parse r2 = some (b, r3))
    (hr : ∀ z ∈ r3.head?, z ≠ '/') : parseSplitDuoP cs = none := by
  unfold parseSplitDuoP
  rw [h]
  cases r3 with
  | nil => simp [h2]
  | cons z zs =>
    have hz := hr z rfl
    simp only [h2]
    split <;> simp_all

theorem parseSplitDuoP_ok (a b : Color) (r : List Char) :
    parseSplitDuoP (a.render :: '/' :: b.render :: '/' :: 'P' :: r) =
      some (.duo a b true, r) := by
  unfold parseSplitDuoP
  simp [Color.parse_render]

theorem parseSplitDuo_no_color {cs : List Char} (h : Color.parse cs = none) :
    parseSplitDuo cs = none := by
  unfold parseSplitDuo
  rw [h]

theorem parseSplitDuo_stop1 {cs : List Char} {c : Color} {r : List Char}
    (h : Color.parse cs = some (c, r)) (hr : ∀ z ∈ r.head?, z ≠ '/') :
    parseSplitDuo cs = none := by
  unfold parseSplitDuo
  rw [h]
  cases r with
  | nil => rfl
  | cons z zs =>
    have := hr z rfl
    split <;> simp_all

theorem parseSplitDuo_stop2 {cs : List Char} {c : Color} {r2 : List Char}
    (h : Color.parse cs = some (c, '/' :: r2)) (h2 : Color.parse r2 = none) :
    parseSplitDuo cs = none := by
  unfold parseSplitDuo
  rw [h]
  simp [h2]

theorem parseSplitDuo_ok (a b : Color) (r : List Char) :
    parseSplitDuo (a.render :: '/' :: b.render :: r) = some (.duo a b false, r) := by
  unfold parseSplitDuo
  simp [Color.parse_render]

theorem parseSplitMono_no_num {cs : List Char} (h : parseNumber cs = none) :
    parseSplitMono cs = none := by
  unfold parseSplitMono
  rw [h]

theorem parseSplitMono_stop1 {cs : List Char} {n : Nat} {r : List Char}
    (h : parseNumber cs = some (n, r)) (hr : ∀ z ∈ r.head?, z ≠ '/') :
    parseSplitMono cs = none := by
  unfold parseSplitMono
  rw [h]
  cases r with
  | nil => rfl
  | cons z zs =>
    have := hr z rfl
    split <;> simp_all

theorem parseSplitMono_ok {ds : List Char} (c : Color) (r : List Char) (hne : ds ≠ [])
    (hds : ∀ x ∈ ds, isDigitChar x = true) (hbound : digitsVal ds ≤ USIZE_MAX) :
    parseSplitMono (ds ++ '/' :: c.render :: r) = some (.mono (digitsVal ds) c, r) := by
  unfold parseSplitMono
  rw [parseNumber_eq hne hds hbound (by intro z hz; simp at hz; subst hz; rfl)]
  simp [Color.parse_render]

theorem singleParse_none {cs : List Char} (h : Color.parse cs = none) :
    SingleMana.parse cs = none := by
  unfold SingleMana.parse parseSinglePhyrexian pAlt
  rw [h]
  simp

theorem SingleMana.parse_snorm (c : Color) {r : List Char}
    (hr : ∀ z ∈ r.head?, z ≠ '/') :
    SingleMana.parse (c.render :: r) = some (.normal c, r) := by
  unfold SingleMana.parse parseSinglePhyrexian pAlt
  cases r with
  | nil => simp [Color.parse_render]
  | cons z zs =>
    have hz := hr z rfl
    simp only [Color.parse_render]
    split <;> simp_all

theorem SingleMana.parse_sphy (c : Color) (r : List Char) :
    SingleMana.parse (c.render :: '/' :: 'P' :: r) = some (.phyrexian c, r) := by
  unfold SingleMana.parse parseSinglePhyrexian pAlt
  simp [Color.parse_render]

theorem GenericMana.parse_num {ds r : List Char} (hne : ds ≠ [])
    (hds : ∀ x ∈ ds, isDigitChar x = true)
    (hbound : digitsVal ds ≤ USIZE_MAX)
    (hr : ∀ c ∈ r.head?, isDigitChar c = false) :
    GenericMana.parse (ds ++ r) = some (.number (digitsVal ds), r) := by
  rcases ds with _ | ⟨d, ds'⟩
  · exact absurd rfl hne
  have hd := hds d (List.mem_cons_self d ds')
  unfold GenericMana.parse
  have hX := isDigitChar_ne hd 'X' (by decide)
  have hY := isDigitChar_ne hd 'Y' (by decide)
  have hZ := isDigitChar_ne hd 'Z' (by decide)
  have hnum := @parseNumber_eq (d :: ds') _ (List.cons_ne_nil d ds') hds hbound hr
  rw [List.cons_append] at hnum ⊢
  split <;> simp_all

theorem genericParse_none {x : Char} (cs : List Char) (hX : x ≠ 'X') (hY : x ≠ 'Y')
    (hZ : x ≠ 'Z') (hd : isDigitChar x = false) : GenericMana.parse (x :: cs) = none := by
  unfold GenericMana.parse
  have hnum := parseNumber_none_head cs hd
  split <;> simp_all

theorem safeRest_no_slash {t : SymText} {r : List Char} (hr : SafeRest t r) :
    ∀ z ∈ r.head?, z ≠ '/' := by
  cases r with
  | nil => simp
  | cons c cs =>
    intro z hz
    simp at hz
    subst hz
    exact hr.1

theorem safeRest_no_digit {t : SymText} {r : List Char} (hr : SafeRest t r)
    (ht : t.isNum = true) : ∀ z ∈ r.head?, isDigitChar z = false := by
  cases r with
  | nil => simp
  | cons c cs =>
    intro z hz
    simp at hz
    subst hz
    cases hq : isDigitChar c
    · rfl
    · rw [hr.2 hq] at ht
      exact Bool.noConfusion ht

/-- Completeness of the ordered-choice symbol parser: on any well-formed
symbol text followed by a safe rest, `Mana::parse_inner` consumes exactly
the text and produces the denoted symbol. -/
theorem parseInner_complete (t : SymText) (hwf : t.wf) (r : List Char)
    (hr : SafeRest t r) : Mana.parse_inner (t.text ++ r) = some (t.mana, r) := by
  cases t with
  | splitColorless c =>
    simp [SymText.text, SymText.mana, Mana.parse_inner, SplitMana.parse, pAlt,
      parseSplitColorless_ok]
  | splitDuoP a b =>
    simp [SymText.text, SymText.mana, Mana.parse_inner, SplitMana.parse, pAlt,
      parseSplitColorless_neC _ (render_facts a).2.2.1, parseSplitDuoP_ok]
  | splitDuo a b =>
    have h1 := parseSplitColorless_neC ('/' :: b.render :: r) (render_facts a).2.2.1
    have h2 := parseSplitDuoP_stopP (Color.parse_render a ('/' :: b.render :: r))
      (Color.parse_render b r) (safeRest_no_slash hr)
    simp only [SymText.text, SymText.mana, List.cons_append, List.nil_append]
    simp [Mana.parse_inner, SplitMana.parse, pAlt, h1, h2, parseSplitDuo_ok]
  | splitMono ds c =>
    obtain ⟨hne, hds, hbound⟩ := hwf
    rcases ds with _ | ⟨d, ds'⟩
    · exact absurd rfl hne
    have hd := hds d (List.mem_cons_self d ds')
    have h1 := parseSplitColorless_neC (ds' ++ '/' :: c.render :: r)
      (isDigitChar_ne hd 'C' (by decide))
    have h2 := parseSplitDuoP_no_color
      (Color.parse_digit (ds' ++ '/' :: c.render :: r) hd)
    have h3 := parseSplitDuo_no_color
      (Color.parse_digit (ds' ++ '/' :: c.render :: r) hd)
    have h4 := @parseSplitMono_ok (d :: ds') c r hne hds hbound
    simp only [SymText.text, SymText.mana, List.cons_append, List.append_assoc,
      List.nil_append] at h4 ⊢
    simp [Mana.parse_inner, SplitMana.parse, pAlt, h1, h2, h3, h4]
  | gx => rfl
  | gy => rfl
  | gz => rfl
  | gnum ds =>
    obtain ⟨hne, hds, hbound⟩ := hwf
    rcases ds with _ | ⟨d, ds'⟩
    · exact absurd rfl hne
    have hd := hds d (List.mem_cons_self d ds')
    have hnum := @parseNumber_eq (d :: ds') _ hne hds hbound (safeRest_no_digit hr rfl)
    have h1 := parseSplitColorless_neC (ds' ++ r) (isDigitChar_ne hd 'C' (by decide))
    have h2 := parseSplitDuoP_no_color (Color.parse_digit (ds' ++ r) hd)
    have h3 := parseSplitDuo_no_color (Color.parse_digit (ds' ++ r) hd)
    have h4 := parseSplitMono_stop1 hnum (safeRest_no_slash hr)
    have h5 := @GenericMana.parse_num (d :: ds') _ hne hds hbound (safeRest_no_digit hr rfl)
    simp only [SymText.text, SymText.mana, List.cons_append] at h4 h5 ⊢
    simp [Mana.parse_inner, SplitMana.parse, pAlt, h1, h2, h3, h4, h5]
  | sphy c =>
    have h1 := parseSplitColorless_neC ('/' :: 'P' :: r) (render_facts c).2.2.1
    have h2 := parseSplitDuoP_stop2 (Color.parse_render c ('/' :: 'P' :: r))
      (show Color.parse ('P' :: r) = none from rfl)
    have h3 := parseSplitDuo_stop2 (Color.parse_render c ('/' :: 'P' :: r))
      (show Color.parse ('P' :: r) = none from rfl)
    have h4 := parseSplitMono_no_num
      (parseNumber_none_head ('/' :: 'P' :: r) (render_facts c).1)
    have h5 := genericParse_none ('/' :: 'P' :: r) (render_facts c).2.2.2.2.1
      (render_facts c).2.2.2.2.2.1 (render_facts c).2.2.2.2.2.2.1 (render_facts c).1
    have h6 := SingleMana.parse_sphy c r
    simp only [SymText.text, SymText.mana, List.cons_append, List.nil_append]
    simp [Mana.parse_inner, pAlt, SplitMana.parse, h1, h2, h3, h4, h5, h6]
  | snorm c =>
    have h1 := parseSplitColorless_neC r (render_facts c).2.2.1
    have h2 := parseSplitDuoP_stop1 (Color.parse_render c r) (safeRest_no_slash hr)
    have h3 := parseSplitDuo_stop1 (Color.parse_render c r) (safeRest_no_slash hr)
    have h4 := parseSplitMono_no_num (parseNumber_none_head r (render_facts c).1)
    have h5 := genericParse_none r (render_facts c).2.2.2.2.1
      (render_facts c).2.2.2.2.2.1 (render_facts c).2.2.2.2.2.2.1 (render_facts c).1
    have h6 := SingleMana.parse_snorm c (safeRest_no_slash hr)
    simp only [SymText.text, SymText.mana, List.cons_append, List.nil_append]
    simp [Mana.parse_inner, pAlt, SplitMana.parse, h1, h2, h3, h4, h5, h6]
  | litc =>
    have h1 := parseSplitColorless_C_stop (safeRest_no_slash hr)
    simp only [SymText.text, SymText.mana, List.cons_append, List.nil_append]
    simp [Mana.parse_inner, pAlt, SplitMana.parse, h1,
      show parseSplitDuoP ('C' :: r) = none from rfl,
      show parseSplitDuo ('C' :: r) = none from rfl,
      show parseSplitMono ('C' :: r) = none from rfl,
      show GenericMana.parse ('C' :: r) = none from rfl,
      show SingleMana.parse ('C' :: r) = none from rfl]
  | lits => rfl

/-! ## Round-trip behaviour of the single-symbol parser (claim C3) -/

theorem symText_no_brace (t : SymText) (hwf : t.wf) :
    ∀ z ∈ t.text.head?, z ≠ Char.ofNat 123 := by
  cases t with
  | splitColorless c =>
    intro z hz
    simp [SymText.text] at hz
    subst hz
    decide
  | splitDuoP a b =>
    intro z hz
    simp [SymText.text] at hz
    subst hz
    exact (render_facts a).2.2.2.2.2.2.2.2.2
  | splitDuo a b =>
    intro z hz
    simp [SymText.text] at hz
    subst hz
    exact (render_facts a).2.2.2.2.2.2.2.2.2
  | splitMono ds c =>
    obtain ⟨hne, hds, hbound⟩ := hwf
    rcases ds with _ | ⟨d, ds'⟩
    · exact absurd rfl hne
    intro z hz
    simp [SymText.text] at hz
    subst hz
    exact isDigitChar_ne (hds d (List.mem_cons_self d ds')) _ (by decide)
  | gx =>
    intro z hz
    simp [SymText.text] at hz
    subst hz
    decide
  | gy =>
    intro z hz
    simp [SymText.text] at hz
    subst hz
    decide
  | gz =>
    intro z hz
    simp [SymText.text] at hz
    subst hz
    decide
  | gnum ds =>
    obtain ⟨hne, hds, hbound⟩ := hwf
    rcases ds with _ | ⟨d, ds'⟩
    · exact absurd rfl hne
    intro z hz
    simp [SymText.text] at hz
    subst hz
    exact isDigitChar_ne (hds d (List.mem_cons_self d ds')) _ (by decide)
  | sphy c =>
    intro z hz
    simp [SymText.text] at hz
    subst hz
    exact (render_facts c).2.2.2.2.2.2.2.2.2
  | snorm c =>
    intro z hz
    simp [SymText.text] at hz
    subst hz
    exact (render_facts c).2.2.2.2.2.2.2.2.2
  | litc =>
    intro z hz
    simp [SymText.text] at hz
    subst hz
    decide
  | lits =>
    intro z hz
    simp [SymText.text] at hz
    subst hz
    decide

theorem parse_braced_none {cs : List Char} (h : ∀ z ∈ cs.head?, z ≠ Char.ofNat 123) :
    Mana.parse_braced cs = none := by
  cases cs with
  | nil => rfl
  | cons c r =>
    have hc := h c rfl
    unfold Mana.parse_braced
    split <;> simp_all

theorem render_text : ∀ (t : SymText), t.canonical → t.mana.render = t.text
  | .splitColorless _, _ => rfl
  | .splitDuoP _ _, _ => rfl
  | .splitDuo _ _, _ => rfl
  | .splitMono ds c, ⟨n, hn⟩ => by
    subst hn
    show natToDigits (digitsVal (natToDigits n)) ++ _ = _
    rw [digitsVal_natToDigits]
    rfl
  | .gx, _ => rfl
  | .gy, _ => rfl
  | .gz, _ => rfl
  | .gnum ds, ⟨n, hn⟩ => by
    subst hn
    show natToDigits (digitsVal (natToDigits n)) = _
    rw [digitsVal_natToDigits]
    rfl
  | .sphy _, _ => rfl
  | .snorm _, _ => rfl
  | .litc, _ => rfl
  | .lits, _ => rfl

/-- **C3** (amended). The round trip holds for canonically written, unwrapped
symbol texts: for every production of the single-symbol grammar whose digit
runs are nonempty, have value at most `usize::MAX` (larger runs make
`parse::<usize>` fail with `PosOverflow`) and are written without leading
zeros, `Mana::from_str` on the unwrapped text succeeds with the denoted
symbol, rendering that symbol reproduces the text byte-for-byte, and the
brace-wrapped text also parses to the same symbol (which renders back
without the braces, so the byte-for-byte round trip is restricted to
unwrapped texts).  The claim as stated fails on digit runs with leading
zeros and on brace-wrapped texts, see the counterexample. -/
theorem claim_C3_roundtrip (t : SymText) (hwf : t.wf) (hc : t.canonical) :
    Mana.from_str t.text = some t.mana ∧ t.mana.render = t.text ∧
      Mana.from_str ('{' :: t.text ++ ['}']) = some t.mana := by
  have h1 := parse_braced_none (symText_no_brace t hwf)
  have h2 := parseInner_complete t hwf [] trivial
  have h3 := parseInner_complete t hwf ['}'] ⟨by decide, fun hq => absurd hq (by decide)⟩
  rw [List.append_nil] at h2
  refine ⟨?_, render_text t hc, ?_⟩
  · simp [Mana.from_str, Mana.parse, pAlt, h1, h2]
  · simp [Mana.from_str, Mana.parse, Mana.parse_braced, pAlt, h3]

/-- Witness for C3: the symbol text `10/U` (a split mono with a multi-digit
run) satisfies the hypotheses and round-trips. -/
theorem claim_C3_witness :
    Mana.from_str (SymText.splitMono (natToDigits 10) Color.blue).text =
        some (SymText.splitMono (natToDigits 10) Color.blue).mana ∧
      (SymText.splitMono (natToDigits 10) Color.blue).mana.render =
        (SymText.splitMono (natToDigits 10) Color.blue).text ∧
      Mana.from_str ('{' :: (SymText.splitMono (natToDigits 10) Color.blue).text ++ ['}']) =
        some (SymText.splitMono (natToDigits 10) Color.blue).mana :=
  claim_C3_roundtrip (SymText.splitMono (natToDigits 10) Color.blue)
    ⟨by decide, by decide, by decide⟩ ⟨10, rfl⟩

/-! ## Soundness of the parsers: a successful parse consumes a grammar text
(claim C2) -/

theorem colorParse_sound {cs : List Char} {c : Color} {r : List Char}
    (h : Color.parse cs = some (c, r)) : cs = c.render :: r := by
  unfold Color.parse at h
  split at h <;>
    first
    | (simp only [Option.some.injEq, Prod.mk.injEq] at h
       obtain ⟨h1, h2⟩ := h
       subst h1
       subst h2
       rfl)
    | simp at h

theorem dropWhile_head {p : Char → Bool} : ∀ (l : List Char),
    ∀ z ∈ (l.dropWhile p).head?, p z = false := by
  intro l
  induction l with
  | nil => simp
  | cons c cs ih =>
    intro z hz
    rw [List.dropWhile_cons] at hz
    by_cases hc : p c
    · rw [if_pos hc] at hz
      exact ih z hz
    · rw [if_neg hc] at hz
      simp at hz
      subst hz
      exact Bool.eq_false_iff.mpr hc

theorem parseNumber_sound {cs : List Char} {n : Nat} {r : List Char}
    (h : parseNumber cs = some (n, r)) :
    cs.takeWhile isDigitChar ≠ [] ∧
      (∀ c ∈ cs.takeWhile isDigitChar, isDigitChar c = true) ∧
      digitsVal (cs.takeWhile isDigitChar) ≤ USIZE_MAX ∧
      cs = cs.takeWhile isDigitChar ++ r ∧
      n = digitsVal (cs.takeWhile isDigitChar) ∧
      ∀ z ∈ r.head?, isDigitChar z = false := by
  unfold parseNumber at h
  by_cases he : (cs.takeWhile isDigitChar).isEmpty
  · rw [if_pos he] at h
    exact Option.noConfusion h
  · by_cases hb : digitsVal (cs.takeWhile isDigitChar) ≤ USIZE_MAX
    · rw [if_neg he, if_pos hb] at h
      simp only [Option.some.injEq, Prod.mk.injEq] at h
      obtain ⟨hn, hr⟩ := h
      refine ⟨by simpa [List.isEmpty_iff] using he,
        fun c hc => List.mem_takeWhile_imp hc, hb, ?_, hn.symm, ?_⟩
      · rw [← hr, List.takeWhile_append_dropWhile]
      · rw [← hr]
        exact dropWhile_head cs
    · rw [if_neg he, if_neg hb] at h
      exact Option.noConfusion h

theorem parseSplitColorless_sound {cs r : List Char} {s : SplitMana}
    (h : parseSplitColorless cs = some (s, r)) :
    ∃ c, s = .colorless c ∧ cs = 'C' :: '/' :: c.render :: r := by
  unfold parseSplitColorless at h
  split at h
  · simp only [Option.map_eq_some'] at h
    obtain ⟨⟨c, r2⟩, hc, heq⟩ := h
    cases heq
    exact ⟨c, rfl, by rw [colorParse_sound hc]⟩
  · simp at h

theorem parseSplitDuoP_sound {cs r : List Char} {s : SplitMana}
    (h : parseSplitDuoP cs = some (s, r)) :
    ∃ a b, s = .duo a b true ∧ cs = a.render :: '/' :: b.render :: '/' :: 'P' :: r := by
  unfold parseSplitDuoP at h
  split at h
  · rename_i a r2 ha
    split at h
    · rename_i b r4 hb
      cases h
      exact ⟨a, b, rfl, by rw [colorParse_sound ha, colorParse_sound hb]⟩
    · simp at h
  · simp at h

theorem parseSplitDuo_sound {cs r : List Char} {s : SplitMana}
    (h : parseSplitDuo cs = some (s, r)) :
    ∃ a b, s = .duo a b false ∧ cs = a.render :: '/' :: b.render :: r := by
  unfold parseSplitDuo at h
  split at h
  · rename_i a r2 ha
    split at h
    · rename_i b r3 hb
      cases h
      exact ⟨a, b, rfl, by rw [colorParse_sound ha, colorParse_sound hb]⟩
    · simp at h
  · simp at h

theorem parseSplitMono_sound {cs r : List Char} {s : SplitMana}
    (h : parseSplitMono cs = some (s, r)) :
    ∃ ds c, ds ≠ [] ∧ (∀ d ∈ ds, isDigitChar d = true) ∧
      digitsVal ds ≤ USIZE_MAX ∧
      s = .mono (digitsVal ds) c ∧ cs = ds ++ '/' :: c.render :: r := by
  unfold parseSplitMono at h
  split at h
  · rename_i n r2 hn
    split at h
    · rename_i c r3 hc
      cases h
      obtain ⟨hne, hds, hb, hcs, hval, -⟩ := parseNumber_sound hn
      refine ⟨cs.takeWhile isDigitChar, c, hne, hds, hb, by rw [hval], ?_⟩
      rw [colorParse_sound hc] at hcs
      exact hcs
    · simp at h
  · simp at h

theorem genericParse_sound {cs r : List Char} {g : GenericMana}
    (h : GenericMana.parse cs = some (g, r)) :
    cs = 'X' :: r ∨ cs = 'Y' :: r ∨ cs = 'Z' :: r ∨
      ∃ ds, ds ≠ [] ∧ (∀ d ∈ ds, isDigitChar d = true) ∧
        digitsVal ds ≤ USIZE_MAX ∧ cs = ds ++ r ∧
        ∀ z ∈ r.head?, isDigitChar z = false := by
  unfold GenericMana.parse at h
  split at h
  · cases h
    exact Or.inl rfl
  · cases h
    exact Or.inr (Or.inl rfl)
  · cases h
    exact Or.inr (Or.inr (Or.inl rfl))
  · simp only [Option.map_eq_some'] at h
    obtain ⟨⟨n, r1⟩, hn, heq⟩ := h
    cases heq
    obtain ⟨hne, hds, hb, hcs, -, hrest⟩ := parseNumber_sound hn
    exact Or.inr (Or.inr (Or.inr ⟨_, hne, hds, hb, hcs, hrest⟩))

theorem parseSinglePhyrexian_sound {cs r : List Char} {s : SingleMana}
    (h : parseSinglePhyrexian cs = some (s, r)) :
    ∃ c, s = .phyrexian c ∧ cs = c.render :: '/' :: 'P' :: r := by
  unfold parseSinglePhyrexian at h
  split at h
  · rename_i c r2 hc
    cases h
    exact ⟨c, rfl, by rw [colorParse_sound hc]⟩
  · simp at h

theorem singleParse_sound {cs r : List Char} {s : SingleMana}
    (h : SingleMana.parse cs = some (s, r)) :
    (∃ c, s = .phyrexian c ∧ cs = c.render :: '/' :: 'P' :: r) ∨
      ∃ c, s = .normal c ∧ cs = c.render :: r := by
  unfold SingleMana.parse at h
  rcases pAlt_cases h with h | h
  · exact Or.inl (parseSinglePhyrexian_sound h)
  · simp only [Option.map_eq_some'] at h
    obtain ⟨⟨c, r1⟩, hc, heq⟩ := h
    cases heq
    exact Or.inr ⟨c, rfl, colorParse_sound hc⟩

theorem splitParse_sound {cs r : List Char} {s : SplitMana}
    (h : SplitMana.parse cs = some (s, r)) :
    ∃ t : SymText, t.wf ∧ cs = t.text ++ r ∧ t.isNum = false := by
  unfold SplitMana.parse at h
  rcases pAlt_cases h with h | h
  · obtain ⟨c, -, hcs⟩ := parseSplitColorless_sound h
    exact ⟨.splitColorless c, trivial, by simp [SymText.text, hcs], rfl⟩
  rcases pAlt_cases h with h | h
  · obtain ⟨a, b, -, hcs⟩ := parseSplitDuoP_sound h
    exact ⟨.splitDuoP a b, trivial, by simp [SymText.text, hcs], rfl⟩
  rcases pAlt_cases h with h | h
  · obtain ⟨a, b, -, hcs⟩ := parseSplitDuo_sound h
    exact ⟨.splitDuo a b, trivial, by simp [SymText.text, hcs], rfl⟩
  · obtain ⟨ds, c, hne, hds, hb, -, hcs⟩ := parseSplitMono_sound h
    exact ⟨.splitMono ds c, ⟨hne, hds, hb⟩, by simp [SymText.text, hcs], rfl⟩

theorem parseInner_sound {cs r : List Char} {m : Mana}
    (h : Mana.parse_inner cs = some (m, r)) :
    ∃ t : SymText, t.wf ∧ cs = t.text ++ r ∧
      (t.isNum = true → ∀ z ∈ r.head?, isDigitChar z = false) := by
  unfold Mana.parse_inner at h
  rcases pAlt_cases h with h | h
  · simp only [Option.map_eq_some'] at h
    obtain ⟨⟨s, r1⟩, hs, heq⟩ := h
    cases heq
    obtain ⟨t, hwf, hcs, hnum⟩ := splitParse_sound hs
    exact ⟨t, hwf, hcs, fun hq => Bool.noConfusion (hnum.symm.trans hq)⟩
  rcases pAlt_cases h with h | h
  · simp only [Option.map_eq_some'] at h
    obtain ⟨⟨g, r1⟩, hg, heq⟩ := h
    cases heq
    rcases genericParse_sound hg with hcs | hcs | hcs | ⟨ds, hne, hds, hb, hcs, hrest⟩
    · exact ⟨.gx, trivial, by simp [SymText.text, hcs], fun hq => Bool.noConfusion hq⟩
    · exact ⟨.gy, trivial, by simp [SymText.text, hcs], fun hq => Bool.noConfusion hq⟩
    · exact ⟨.gz, trivial, by simp [SymText.text, hcs], fun hq => Bool.noConfusion hq⟩
    · exact ⟨.gnum ds, ⟨hne, hds, hb⟩, hcs, fun _ => hrest⟩
  rcases pAlt_cases h with h | h
  · simp only [Option.map_eq_some'] at h
    obtain ⟨⟨s, r1⟩, hs, heq⟩ := h
    cases heq
    rcases singleParse_sound hs with ⟨c, -, hcs⟩ | ⟨c, -, hcs⟩
    · exact ⟨.sphy c, trivial, by simp [SymText.text, hcs], fun hq => Bool.noConfusion hq⟩
    · exact ⟨.snorm c, trivial, by simp [SymText.text, hcs], fun hq => Bool.noConfusion hq⟩
  rcases pAlt_cases h with h | h
  · split at h
    · cases h
      exact ⟨.litc, trivial, rfl, fun hq => Bool.noConfusion hq⟩
    · simp at h
  · split at h
    · cases h
      exact ⟨.lits, trivial, rfl, fun hq => Bool.noConfusion hq⟩
    · simp at h

theorem manaParse_sound {cs r : List Char} {m : Mana}
    (h : Mana.parse cs = some (m, r)) :
    ∃ g : Group, g.sym.wf ∧ cs = g.text ++ r ∧
      (g.braced = false → g.sym.isNum = true →
        ∀ z ∈ r.head?, isDigitChar z = false) := by
  unfold Mana.parse at h
  rcases pAlt_cases h with h | h
  · unfold Mana.parse_braced at h
    split at h
    · rename_i r1
      split at h
      · rename_i m2 r2 hinner
        cases h
        obtain ⟨t, hwf, hr1, -⟩ := parseInner_sound hinner
        refine ⟨⟨true, t⟩, hwf, ?_, fun hq => Bool.noConfusion hq⟩
        simp [Group.text, hr1]
      · simp at h
    · simp at h
  · obtain ⟨t, hwf, hcs, hnum⟩ := parseInner_sound h
    exact ⟨⟨false, t⟩, hwf, by simp [Group.text, hcs], fun _ => hnum⟩

theorem from_str_some_iff (cs : List Char) :
    (∃ ms, Manas.from_str cs = some ms) ↔ (parseManas cs).2 = [] := by
  rcases hp : parseManas cs with ⟨ms, rest⟩
  unfold Manas.from_str
  rw [hp]
  cases rest with
  | nil => simp
  | cons c r => simp

/-! ## Completeness: every concatenation of (braced or bare) well-formed
symbol texts is consumed entirely by the `many0` loop (claim C2) -/

theorem symText_text_ne_nil : ∀ (t : SymText), t.wf → t.text ≠ []
  | .splitColorless _, _ => by simp [SymText.text]
  | .splitDuoP _ _, _ => by simp [SymText.text]
  | .splitDuo _ _, _ => by simp [SymText.text]
  | .splitMono _ _, _ => by simp [SymText.text]
  | .gx, _ => by simp [SymText.text]
  | .gy, _ => by simp [SymText.text]
  | .gz, _ => by simp [SymText.text]
  | .gnum _, h => h.1
  | .sphy _, _ => by simp [SymText.text]
  | .snorm _, _ => by simp [SymText.text]
  | .litc, _ => by simp [SymText.text]
  | .lits, _ => by simp [SymText.text]

theorem symText_no_slash (t : SymText) (hwf : t.wf) :
    ∀ z ∈ t.text.head?, z ≠ '/' := by
  cases t with
  | splitMono ds c =>
    obtain ⟨hne, hds, hbound⟩ := hwf
    rcases ds with _ | ⟨d, ds2⟩
    · exact absurd rfl hne
    intro z hz
    simp [SymText.text] at hz
    subst hz
    exact isDigitChar_ne (hds d (List.mem_cons_self d ds2)) _ (by decide)
  | gnum ds =>
    obtain ⟨hne, hds, hbound⟩ := hwf
    rcases ds with _ | ⟨d, ds2⟩
    · exact absurd rfl hne
    intro z hz
    simp [SymText.text] at hz
    subst hz
    exact isDigitChar_ne (hds d (List.mem_cons_self d ds2)) _ (by decide)
  | splitDuoP a b =>
    intro z hz
    simp [SymText.text] at hz
    subst hz
    exact (render_facts a).2.1
  | splitDuo a b =>
    intro z hz
    simp [SymText.text] at hz
    subst hz
    exact (render_facts a).2.1
  | sphy c =>
    intro z hz
    simp [SymText.text] at hz
    subst hz
    exact (render_facts c).2.1
  | snorm c =>
    intro z hz
    simp [SymText.text] at hz
    subst hz
    exact (render_facts c).2.1
  | splitColorless c =>
    intro z hz
    simp [SymText.text] at hz
    subst hz
    decide
  | gx =>
    intro z hz
    simp [SymText.text] at hz
    subst hz
    decide
  | gy =>
    intro z hz
    simp [SymText.text] at hz
    subst hz
    decide
  | gz =>
    intro z hz
    simp [SymText.text] at hz
    subst hz
    decide
  | litc =>
    intro z hz
    simp [SymText.text] at hz
    subst hz
    decide
  | lits =>
    intro z hz
    simp [SymText.text] at hz
    subst hz
    decide

theorem symText_digit_head (t : SymText) {z : Char}
    (hz : z ∈ t.text.head?) (hd : isDigitChar z = true) :
    (∃ ds, t = .gnum ds) ∨ ∃ ds c, t = .splitMono ds c := by
  cases t with
  | gnum ds => exact Or.inl ⟨ds, rfl⟩
  | splitMono ds c => exact Or.inr ⟨ds, c, rfl⟩
  | splitColorless c =>
    simp [SymText.text] at hz
    subst hz
    exact absurd hd (by decide)
  | splitDuoP a b =>
    simp [SymText.text] at hz
    subst hz
    rw [(render_facts a).1] at hd
    exact Bool.noConfusion hd
  | splitDuo a b =>
    simp [SymText.text] at hz
    subst hz
    rw [(render_facts a).1] at hd
    exact Bool.noConfusion hd
  | sphy c =>
    simp [SymText.text] at hz
    subst hz
    rw [(render_facts c).1] at hd
    exact Bool.noConfusion hd
  | snorm c =>
    simp [SymText.text] at hz
    subst hz
    rw [(render_facts c).1] at hd
    exact Bool.noConfusion hd
  | gx =>
    simp [SymText.text] at hz
    subst hz
    exact absurd hd (by decide)
  | gy =>
    simp [SymText.text] at hz
    subst hz
    exact absurd hd (by decide)
  | gz =>
    simp [SymText.text] at hz
    subst hz
    exact absurd hd (by decide)
  | litc =>
    simp [SymText.text] at hz
    subst hz
    exact absurd hd (by decide)
  | lits =>
    simp [SymText.text] at hz
    subst hz
    exact absurd hd (by decide)

theorem head?_append_left {l r : List Char} (h : l ≠ []) :
    (l ++ r).head? = l.head? := by
  cases l with
  | nil => exact absurd rfl h
  | cons c cs => rfl

theorem safeRest_of {t : SymText} {R : List Char}
    (h1 : ∀ z ∈ R.head?, z ≠ '/')
    (h2 : ∀ z ∈ R.head?, isDigitChar z = true → t.isNum = false) :
    SafeRest t R := by
  cases R with
  | nil => exact trivial
  | cons z zs => exact ⟨h1 z rfl, h2 z rfl⟩

theorem groupFlatten_head (gs : List Group) (hwf : ∀ g ∈ gs, g.sym.wf) :
    ∀ z ∈ ((gs.map Group.text).flatten).head?, z ≠ '/' ∧
      (isDigitChar z = true →
        ∃ t2 gs2, gs = ⟨false, t2⟩ :: gs2 ∧ z ∈ t2.text.head?) := by
  cases gs with
  | nil => simp
  | cons g gs2 =>
    obtain ⟨gb, t2⟩ := g
    have hwf2 : t2.wf := hwf ⟨gb, t2⟩ (List.mem_cons_self _ _)
    cases gb with
    | true =>
      intro z hz
      simp [Group.text] at hz
      subst hz
      exact ⟨by decide, fun hd => absurd hd (by decide)⟩
    | false =>
      intro z hz
      simp only [List.map_cons, List.flatten_cons] at hz
      have hne := symText_text_ne_nil t2 hwf2
      rw [show Group.text ⟨false, t2⟩ = t2.text from rfl] at hz
      rw [head?_append_left hne] at hz
      exact ⟨symText_no_slash t2 hwf2 z hz, fun hd => ⟨t2, gs2, rfl, hz⟩⟩

theorem groupText_ne_nil (g : Group) (hwf : g.sym.wf) : g.text ≠ [] := by
  obtain ⟨gb, t⟩ := g
  cases gb with
  | false => exact symText_text_ne_nil t hwf
  | true => simp [Group.text]

theorem parseManas_sound : ∀ (N : Nat) (cs : List Char), cs.length ≤ N →
    (parseManas cs).2 = [] → InLang cs := by
  intro N
  induction N with
  | zero =>
    intro cs hlen h
    obtain rfl : cs = [] := List.length_eq_zero.mp (Nat.le_zero.mp hlen)
    exact ⟨[], by simp, List.chain'_nil, by simp⟩
  | succ N ih =>
    intro cs hlen h
    rw [parseManas_eq] at h
    cases hp : Mana.parse cs with
    | none =>
      rw [hp] at h
      simp at h
      subst h
      exact ⟨[], by simp, List.chain'_nil, by simp⟩
    | some v =>
      obtain ⟨m, r⟩ := v
      rw [hp] at h
      simp at h
      have hlt := manaParse_length hp
      obtain ⟨g, hwfg, hcs, hsep⟩ := manaParse_sound hp
      obtain ⟨gs, hwfgs, hchain, hr⟩ := ih r (by omega) h
      refine ⟨g :: gs, ?_, ?_, ?_⟩
      · intro g2 hg2
        rcases List.mem_cons.mp hg2 with rfl | hg2
        · exact hwfg
        · exact hwfgs g2 hg2
      · rw [List.chain'_cons']
        refine ⟨?_, hchain⟩
        intro g2 hg2
        intro hb hn z hz
        cases gs with
        | nil => simp at hg2
        | cons g3 gs3 =>
          simp at hg2
          subst hg2
          have hne3 := groupText_ne_nil _ (hwfgs _ (List.mem_cons_self _ _))
          apply hsep hb hn z
          rw [hr]
          simp only [List.map_cons, List.flatten_cons]
          rw [head?_append_left hne3]
          exact hz
      · rw [hcs, hr]
        simp

theorem manasParse_complete : ∀ (gs : List Group), (∀ g ∈ gs, g.sym.wf) →
    List.Chain' GroupSep gs →
    (parseManas ((gs.map Group.text).flatten)).2 = [] := by
  intro gs
  induction gs with
  | nil =>
    intro _ _
    rfl
  | cons g gs1 ih =>
    intro hwf hchain
    obtain ⟨gb, t⟩ := g
    have hwf_t : t.wf := hwf ⟨gb, t⟩ (List.mem_cons_self _ _)
    have hwf1 : ∀ g ∈ gs1, g.sym.wf := fun g hg => hwf g (List.mem_cons_of_mem _ hg)
    obtain ⟨hhead, hchain1⟩ := List.chain'_cons'.mp hchain
    cases gb with
    | true =>
      have hshape : (List.map Group.text (⟨true, t⟩ :: gs1)).flatten =
          '{' :: (t.text ++ ('}' :: (gs1.map Group.text).flatten)) := by
        simp [Group.text]
      rw [hshape]
      have h3 := parseInner_complete t hwf_t ('}' :: (gs1.map Group.text).flatten)
        ⟨by decide, fun hq => absurd hq (by decide)⟩
      have hb : Mana.parse_braced
          ('{' :: (t.text ++ ('}' :: (gs1.map Group.text).flatten))) =
          some (t.mana, (gs1.map Group.text).flatten) := by
        simp [Mana.parse_braced, h3]
      have hp : Mana.parse
          ('{' :: (t.text ++ ('}' :: (gs1.map Group.text).flatten))) =
          some (t.mana, (gs1.map Group.text).flatten) := by
        simp [Mana.parse, pAlt, hb]
      rw [parseManas_eq, hp]
      exact ih hwf1 hchain1
    | false =>
      have hshape : (List.map Group.text (⟨false, t⟩ :: gs1)).flatten =
          t.text ++ (gs1.map Group.text).flatten := by
        simp [Group.text]
      rw [hshape]
      have hsafe : SafeRest t ((gs1.map Group.text).flatten) := by
        apply safeRest_of
        · exact fun z hz => (groupFlatten_head gs1 hwf1 z hz).1
        · intro z hz hdz
          cases hiN : t.isNum with
          | false => rfl
          | true =>
            exfalso
            obtain ⟨t2, gs2, rfl, hz2⟩ := (groupFlatten_head gs1 hwf1 z hz).2 hdz
            have hzf := hhead ⟨false, t2⟩ rfl rfl hiN z hz2
            rw [hdz] at hzf
            exact Bool.noConfusion hzf
      have hne := symText_text_ne_nil t hwf_t
      have hbr : Mana.parse_braced
          (t.text ++ (gs1.map Group.text).flatten) = none := by
        apply parse_braced_none
        intro z hz
        rw [head?_append_left hne] at hz
        exact symText_no_brace t hwf_t z hz
      have hin := parseInner_complete t hwf_t _ hsafe
      have hp : Mana.parse (t.text ++ (gs1.map Group.text).flatten) =
          some (t.mana, (gs1.map Group.text).flatten) := by
        simp [Mana.parse, pAlt, hbr, hin]
      rw [parseManas_eq, hp]
      exact ih hwf1 hchain1

/-- **C2** (amended). Whole-cost parsing succeeds exactly on concatenations
of zero or more groups, where each group is one well-formed symbol text —
digit runs nonempty, with value at most `usize::MAX` — either wrapped in
one pair of braces or bare (the braces are optional, not mandatory as
claimed), and no bare digit-run group is followed directly by a group
whose text starts with a digit (the greedy digit-run parser always
consumes maximal runs, so split runs never describe what it accepts).
In particular the unbraced `"U"` parses (see the counterexample), while
`"U "` and `" U"` still fail, as no symbol text contains a space. -/
theorem claim_C2_language (cs : List Char) :
    (∃ ms, Manas.from_str cs = some ms) ↔ InLang cs := by
  rw [from_str_some_iff]
  constructor
  · exact parseManas_sound cs.length cs le_rfl
  · rintro ⟨gs, hwfgs, hchain, rfl⟩
    exact manasParse_complete gs hwfgs hchain

end ManaSymbols




